import Mathlib

/-!
# k8s-pod-upgrade-check: image freshness evaluation

A shallow embedding of `src/cmd/root.go`:

* `TryParseSemver` (lines 196-217), together with the two library routines it
  calls: `semver.ParseTolerant` of `github.com/blang/semver/v4` and
  `time.Parse` of the Go standard library, the latter specialised to the two
  layouts the source passes;
* `ParseImageRef` (lines 123-142), over the reference parser
  `ParseNormalizedNamed` of `go.podman.io/image/v5/docker/reference`, which is
  taken as a parameter; the small library functions around it (`TagNameOnly`,
  `IsNameOnly`, `WithTag`, `SplitHostname`) are transcribed;
* the body of `Checker.checkVersions` (lines 237-446): the rate-limit gate,
  the scan that classifies the tags of a repository, and the message that is
  put into the event.

Go strings are modelled as lists of Unicode characters; `len` is the number of
UTF-8 bytes (`goLen`).  Unsigned 64-bit integers are natural numbers; the only
place where the width matters is `strconv.ParseUint`, which rejects a value
that does not fit.
-/

namespace PodUpgradeCheck

/-! ## Package `strings` and `strconv` -/

/-- Go `len(s)`: the number of bytes of the UTF-8 encoding. -/
def goLen (s : List Char) : Nat := (s.map Char.utf8Size).sum

/-- The decimal digits, `"0123456789"`. -/
def isNumber (c : Char) : Bool := decide (48 ≤ c.toNat) && decide (c.toNat ≤ 57)

/-- Value of a decimal digit. -/
def digitVal (c : Char) : Nat := c.toNat - 48

/-- The set `alphanum` of blang/semver:
`"abcdefghijklmnopqrstuvwxyzABCDEFGHIJKLMNOPQRSTUVWXYZ-" + "0123456789"`. -/
def isAlphanum (c : Char) : Bool :=
  (decide (97 ≤ c.toNat) && decide (c.toNat ≤ 122)) ||
  (decide (65 ≤ c.toNat) && decide (c.toNat ≤ 90)) ||
  c == '-' || isNumber c

/-- Go `unicode.IsSpace`. -/
def isSpace (c : Char) : Bool :=
  let n := c.toNat
  n == 9 || n == 10 || n == 11 || n == 12 || n == 13 || n == 32 ||
  n == 0x85 || n == 0xA0 || n == 0x1680 ||
  (decide (0x2000 ≤ n) && decide (n ≤ 0x200A)) ||
  n == 0x2028 || n == 0x2029 || n == 0x202F || n == 0x205F || n == 0x3000

/-- Go `strings.TrimSpace`. -/
def trimSpace (s : List Char) : List Char :=
  ((s.dropWhile isSpace).reverse.dropWhile isSpace).reverse

/-- Go `strings.TrimPrefix(s, "v")`. -/
def trimPrefixV : List Char → List Char
  | 'v' :: t => t
  | s => s

/-- Go `strings.TrimLeft(p, "0")`. -/
def trimLeftZero (p : List Char) : List Char := p.dropWhile (fun c => c == '0')

/-- Go `strings.Split(s, sep)` for a one-character separator. -/
def split (sep : Char) : List Char → List (List Char)
  | [] => [[]]
  | c :: cs =>
    if c = sep then [] :: split sep cs
    else
      match split sep cs with
      | [] => [[c]]
      | h :: t => (c :: h) :: t

/-- Go `strings.SplitN(s, sep, n)` for a one-character separator and `n ≥ 0`. -/
def splitN (sep : Char) : Nat → List Char → List (List Char)
  | 0, _ => []
  | 1, s => [s]
  | _ + 2, [] => [[]]
  | n + 2, c :: cs =>
    if c = sep then [] :: splitN sep (n + 1) cs
    else
      match splitN sep (n + 2) cs with
      | [] => [[c]]
      | h :: t => (c :: h) :: t

/-- Go `strings.Join(parts, ".")`. -/
def joinDot : List (List Char) → List Char
  | [] => []
  | [p] => p
  | p :: q :: rest => p ++ '.' :: joinDot (q :: rest)

/-- Go `strings.IndexRune(s, c)` followed by the two slices `s[:i]` and
`s[i+1:]`; `none` when the index is `-1`. -/
def cutAt (c : Char) : List Char → Option (List Char × List Char)
  | [] => none
  | d :: ds =>
    if d = c then some ([], ds)
    else
      match cutAt c ds with
      | none => none
      | some (a, b) => some (d :: a, b)

/-- Value of a string of decimal digits, most significant first. -/
def decimalValue (s : List Char) : Nat := s.foldl (fun acc c => acc * 10 + digitVal c) 0

/-- Go `strconv.ParseUint(s, 10, 64)`: a non-empty string of decimal digits
whose value fits 64 bits. -/
def parseUint (s : List Char) : Option Nat :=
  if s.isEmpty then none
  else if s.all isNumber then
    (if decimalValue s < 2 ^ 64 then some (decimalValue s) else none)
  else none

/-! ## Package `github.com/blang/semver/v4` -/

/-- The type `semver.PRVersion`. -/
structure PRVersion where
  VersionStr : String
  VersionNum : Nat
  IsNum : Bool
deriving DecidableEq, Repr

/-- The type `semver.Version`. -/
structure Version where
  Major : Nat
  Minor : Nat
  Patch : Nat
  Pre : List PRVersion
  Build : List String
deriving DecidableEq, Repr

/-- The helper `containsOnly(s, numbers)`. -/
def containsOnlyNumbers (s : List Char) : Bool := s.all isNumber

/-- The helper `containsOnly(s, alphanum)`. -/
def containsOnlyAlphanum (s : List Char) : Bool := s.all isAlphanum

/-- The helper `hasLeadingZeroes`: `len(s) > 1 && s[0] == '0'`. -/
def hasLeadingZeroes (s : List Char) : Bool :=
  decide (goLen s > 1) && (s.head? == some '0')

/-- The constructor `semver.NewPRVersion`. -/
def NewPRVersion (s : List Char) : Option PRVersion :=
  if goLen s = 0 then none
  else if containsOnlyNumbers s then
    if hasLeadingZeroes s then none
    else
      match parseUint s with
      | none => none
      | some num => some { VersionStr := "", VersionNum := num, IsNum := true }
  else if containsOnlyAlphanum s then
    some { VersionStr := String.mk s, VersionNum := 0, IsNum := false }
  else none

/-- One numeric component of `semver.Parse` (major, minor or patch): digits
only, no leading zero, fits 64 bits. -/
def parseNumeric (s : List Char) : Option Nat :=
  if !containsOnlyNumbers s then none
  else if hasLeadingZeroes s then none
  else parseUint s

/-- The loop of `semver.Parse` over the pre-release identifiers. -/
def parsePrerelease : List (List Char) → Option (List PRVersion)
  | [] => some []
  | p :: ps =>
    match NewPRVersion p with
    | none => none
    | some v =>
      match parsePrerelease ps with
      | none => none
      | some vs => some (v :: vs)

/-- The loop of `semver.Parse` over the build identifiers. -/
def parseBuild : List (List Char) → Option (List String)
  | [] => some []
  | b :: bs =>
    if goLen b = 0 then none
    else if !containsOnlyAlphanum b then none
    else
      match parseBuild bs with
      | none => none
      | some rest => some (String.mk b :: rest)

/-- The function `semver.Parse`; `none` stands for a returned error. -/
def Parse (s : List Char) : Option Version :=
  if goLen s = 0 then none
  else
    match splitN '.' 3 s with
    | [p0, p1, p2] =>
      match parseNumeric p0 with
      | none => none
      | some major =>
        match parseNumeric p1 with
        | none => none
        | some minor =>
          let (patchStr1, build) :=
            match cutAt '+' p2 with
            | some (a, b) => (a, split '.' b)
            | none => (p2, [])
          let (patchStr, prerelease) :=
            match cutAt '-' patchStr1 with
            | some (a, b) => (a, split '.' b)
            | none => (patchStr1, [])
          match parseNumeric patchStr with
          | none => none
          | some patch =>
            match parsePrerelease prerelease with
            | none => none
            | some pre =>
              match parseBuild build with
              | none => none
              | some bld =>
                some { Major := major, Minor := minor, Patch := patch, Pre := pre, Build := bld }
    | _ => none

/-- The leading-zero removal of `semver.ParseTolerant`, applied to one part. -/
def stripPart (p : List Char) : List Char :=
  if goLen p > 1 then
    let q := trimLeftZero p
    if goLen q = 0 || !((q.head?.map isNumber).getD false) then '0' :: q else q
  else p

/-- The filling loop of `semver.ParseTolerant`: append `"0"` until there are
three parts. -/
def fillParts (parts : List (List Char)) : List (List Char) :=
  parts ++ List.replicate (3 - parts.length) ['0']

/-- The function `semver.ParseTolerant`; `none` stands for a returned error. -/
def ParseTolerant (s : List Char) : Option Version :=
  let s1 := trimPrefixV (trimSpace s)
  let parts := (splitN '.' 3 s1).map stripPart
  if parts.length < 3 then
    if (parts.getLast?.getD []).any (fun c => c == '+' || c == '-') then none
    else Parse (joinDot (fillParts parts))
  else Parse (joinDot parts)

/-- The method `PRVersion.Compare`. -/
def PRVersion.Compare (v o : PRVersion) : Int :=
  if v.IsNum && !o.IsNum then -1
  else if !v.IsNum && o.IsNum then 1
  else if v.IsNum && o.IsNum then
    if v.VersionNum = o.VersionNum then 0
    else if v.VersionNum > o.VersionNum then 1
    else -1
  else
    if v.VersionStr = o.VersionStr then 0
    else if v.VersionStr > o.VersionStr then 1
    else -1

/-- The identifier-by-identifier loop of `Version.Compare` with the length
comparison that follows it. -/
def comparePre : List PRVersion → List PRVersion → Int
  | [], [] => 0
  | [], _ :: _ => -1
  | _ :: _, [] => 1
  | a :: as, b :: bs =>
    if a.Compare b = 0 then comparePre as bs
    else if a.Compare b = 1 then 1
    else -1

/-- The method `Version.Compare`: `-1`, `0` or `1`. -/
def Version.Compare (v o : Version) : Int :=
  if v.Major ≠ o.Major then (if v.Major > o.Major then 1 else -1)
  else if v.Minor ≠ o.Minor then (if v.Minor > o.Minor then 1 else -1)
  else if v.Patch ≠ o.Patch then (if v.Patch > o.Patch then 1 else -1)
  else if v.Pre.length = 0 ∧ o.Pre.length = 0 then 0
  else if v.Pre.length = 0 ∧ o.Pre.length > 0 then 1
  else if v.Pre.length > 0 ∧ o.Pre.length = 0 then -1
  else comparePre v.Pre o.Pre

/-- The method `Version.GT`. -/
def Version.GT (v o : Version) : Bool := decide (v.Compare o = 1)

/-- The method `Version.LT`. -/
def Version.LT (v o : Version) : Bool := decide (v.Compare o = -1)

/-! ## Package `time`: `time.Parse` for the layouts `"20060102"` and `"2006010203"` -/

/-- The helper `getnum(s, fixed)` of package `time`. -/
def getnum (s : List Char) (fixed : Bool) : Option (Nat × List Char) :=
  match s with
  | [] => none
  | a :: rest =>
    if !isNumber a then none
    else
      match rest with
      | [] => if fixed then none else some (digitVal a, rest)
      | b :: rest2 =>
        if !isNumber b then (if fixed then none else some (digitVal a, rest))
        else some (digitVal a * 10 + digitVal b, rest2)

/-- The chunk `stdLongYear` ("2006"): four bytes that are all decimal digits. -/
def getLongYear : List Char → Option (Nat × List Char)
  | a :: b :: c :: d :: rest =>
    if isNumber a && isNumber b && isNumber c && isNumber d then
      some (decimalValue [a, b, c, d], rest)
    else none
  | _ => none

/-- The helper `isLeap` of package `time`. -/
def isLeap (year : Nat) : Bool :=
  year % 4 == 0 && (year % 100 != 0 || year % 400 == 0)

/-- The helper `daysIn` of package `time`. -/
def daysIn (month year : Nat) : Nat :=
  if month = 2 then (if isLeap year then 29 else 28)
  else if month = 4 ∨ month = 6 ∨ month = 9 ∨ month = 11 then 30
  else 31

/-- The layout chunks "2006" (`stdLongYear`), "01" (`stdZeroMonth`, with its
range check) and "02" (`stdZeroDay`, any two digits), read off the front of the
value; the remaining text is returned. -/
def parseYMD (value : List Char) : Option (Nat × Nat × Nat × List Char) :=
  match getLongYear value with
  | none => none
  | some (year, v1) =>
    match getnum v1 true with
    | none => none
    | some (month, v2) =>
      if month = 0 ∨ 12 < month then none
      else
        match getnum v2 true with
        | none => none
        | some (day, v3) => some (year, month, day, v3)

/-- `time.Parse("20060102", s)` succeeds (`err == nil`): the three chunks are
read, no text is left over, and the day of the month, which `Parse` validates
last, exists in that month. -/
def timeParseYMD (s : List Char) : Bool :=
  match parseYMD s with
  | none => false
  | some (year, month, day, rest) =>
    if goLen rest ≠ 0 then false
    else decide (1 ≤ day ∧ day ≤ daysIn month year)

/-- `time.Parse("2006010203", s)` succeeds (`err == nil`).  The layout chunk
"03" is `stdZeroHour12`, the hour of a 12-hour clock: two digits whose value is
at most 12. -/
def timeParseYMDH (s : List Char) : Bool :=
  match parseYMD s with
  | none => false
  | some (year, month, day, v3) =>
    match getnum v3 true with
    | none => false
    | some (hour, rest) =>
      if 12 < hour then false
      else if goLen rest ≠ 0 then false
      else decide (1 ≤ day ∧ day ≤ daysIn month year)

/-! ## `TryParseSemver` (root.go, lines 196-217) -/

/-- The function `TryParseSemver`; `none` is the nil pointer. -/
def TryParseSemver (s : String) : Option Version :=
  if timeParseYMD s.data then none
  else if timeParseYMDH s.data then none
  else
    match ParseTolerant s.data with
    | some v => some v
    | none =>
      match ParseTolerant ((split '-' s.data).headD []) with
      | none => none
      | some v =>
        if (split '.' s.data).length = 1 then none
        else some v

/-! ## Image references (root.go, lines 118-185) -/

/-- The values of the interface `dockerref.Named` that the reference parser
returns: the library types `repository` (a name only), `taggedReference`,
`canonicalReference` (a name and a digest) and `reference` (name, tag and
digest). -/
inductive Named where
  | repository (domain path : String)
  | taggedReference (domain path tag : String)
  | canonicalReference (domain path digest : String)
  | reference (domain path tag digest : String)
deriving DecidableEq, Repr

/-- The values of the interface `dockerref.NamedTagged`: the two library types
that have a method `Tag`. -/
inductive NamedTagged where
  | taggedReference (domain path tag : String)
  | reference (domain path tag digest : String)
deriving DecidableEq, Repr

/-- The method `Tag`. -/
def NamedTagged.Tag : NamedTagged → String
  | .taggedReference _ _ tag => tag
  | .reference _ _ tag _ => tag

/-- The library method `Name`: `domain + "/" + path`, or the path alone when
the domain is empty. -/
def repositoryName (domain path : String) : String :=
  if domain = "" then path else domain ++ "/" ++ path

/-- The method `String`. -/
def NamedTagged.String : NamedTagged → String
  | .taggedReference domain path tag => repositoryName domain path ++ ":" ++ tag
  | .reference domain path tag digest =>
    repositoryName domain path ++ ":" ++ tag ++ "@" ++ digest

/-- The library function `SplitHostname`, first result. -/
def Named.domain : Named → String
  | .repository d _ => d
  | .taggedReference d _ _ => d
  | .canonicalReference d _ _ => d
  | .reference d _ _ _ => d

/-- The library function `IsNameOnly`: neither `NamedTagged` nor `Canonical`. -/
def IsNameOnly : Named → Bool
  | .repository _ _ => true
  | _ => false

/-- The library function `WithTag` for a tag that is well formed: a reference
that carries a digest keeps it. -/
def WithTag (name : Named) (tag : String) : Named :=
  match name with
  | .repository d p => .taggedReference d p tag
  | .taggedReference d p _ => .taggedReference d p tag
  | .canonicalReference d p g => .reference d p tag g
  | .reference d p _ g => .reference d p tag g

/-- The library function `TagNameOnly`: adds the default tag "latest" to a
reference that has only a name, and returns every other reference as it is. -/
def TagNameOnly (ref : Named) : Named :=
  if IsNameOnly ref then WithTag ref "latest" else ref

/-- The type assertion `.(dockerref.NamedTagged)`; `none` when the dynamic type
does not implement the interface, which in Go is a run-time panic. -/
def assertNamedTagged : Named → Option NamedTagged
  | .taggedReference d p t => some (.taggedReference d p t)
  | .reference d p t g => some (.reference d p t g)
  | _ => none

/-- The type `ImageRef`. -/
structure ImageRef where
  NamedTagged : NamedTagged
  Version : Option Version
deriving DecidableEq, Repr

/-- Instants and durations, in nanoseconds. -/
abbrev Time := Int

/-- The type `ImageTag`. -/
structure ImageTag where
  Tag : String
  Version : Option Version
  CreatedAt : Option Time
deriving DecidableEq, Repr

/-- What a call can do: return a value, return an error, or panic. -/
inductive Outcome (α : Type) where
  | ok (a : α)
  | error (msg : String)
  | panicked
deriving DecidableEq, Repr

/-- The function `ParseImageRef` (lines 123-142).  The library function
`dockerref.ParseNormalizedNamed` is the parameter `parseNormalizedNamed`. -/
def ParseImageRef (parseNormalizedNamed : String → Except String Named) (s : String) :
    Outcome ImageRef :=
  match parseNormalizedNamed s with
  | .error e => .error e
  | .ok imgRef0 =>
    let reparsed : Except String Named :=
      if imgRef0.domain = "" then parseNormalizedNamed ("docker.io/" ++ s) else .ok imgRef0
    match reparsed with
    | .error e => .error e
    | .ok imgRef =>
      match assertNamedTagged (TagNameOnly imgRef) with
      | none => .panicked
      | some nt => .ok { NamedTagged := nt, Version := TryParseSemver nt.Tag }

/-! ## The rate-limit gate (root.go, lines 246-261) -/

/-- The gate at the head of `checkVersions`: `true` when the pod is checked,
`false` when the function returns early.  `lastCheckEntry` is the result of the
map lookup `pod.Annotations[lastCheckAnnotation]`, `parseRFC3339` stands for
`time.Parse(time.RFC3339, _)` and `now` for `time.Now()`.  Instants are whole
numbers of nanoseconds; a parsed RFC 3339 instant lies in the years 0 to 9999
and a duration is a 64-bit number of nanoseconds, so `Add` does not saturate. -/
def shouldCheck (parseRFC3339 : String → Option Time) (lastCheckEntry : Option String)
    (now checkInterval : Time) : Bool :=
  match lastCheckEntry with
  | some lastCheckStr =>
    match parseRFC3339 lastCheckStr with
    | some lastCheck =>
      let next := lastCheck + checkInterval
      if next > now then false else true
    | none => true
  | none => true

/-! ## The tag scan (root.go, lines 325-372) -/

/-- Go map assignment `m[k] = v` on an association list with distinct keys. -/
def mapSet (m : List (Nat × ImageTag)) (k : Nat) (v : ImageTag) : List (Nat × ImageTag) :=
  match m with
  | [] => [(k, v)]
  | (k1, v1) :: rest => if k1 = k then (k, v) :: rest else (k1, v1) :: mapSet rest k v

/-- Go map lookup `m[k]` with the "comma ok" result. -/
def mapGet (m : List (Nat × ImageTag)) (k : Nat) : Option ImageTag :=
  match m with
  | [] => none
  | (k1, v1) :: rest => if k1 = k then some v1 else mapGet rest k

/-- The expression `slices.Sorted(maps.Keys(m))`. -/
def sortedKeys (m : List (Nat × ImageTag)) : List Nat :=
  (m.map Prod.fst).insertionSort (fun a b => a ≤ b)

/-- The three running maxima of the scan. -/
structure ScanState where
  latestMajors : List (Nat × ImageTag)
  latestMinor : ImageTag
  latestSubminor : ImageTag
deriving DecidableEq, Repr

/-- One iteration of the loop over `tags` (lines 330-360).  `none` is a nil
pointer dereference. -/
def scanTag (refV : Version) (st : ScanState) (tag : ImageTag) : Option ScanState :=
  match tag.Version with
  | none => some st
  | some tv =>
    if refV.Major > tv.Major then some st
    else if refV.Major < tv.Major then
      match mapGet st.latestMajors tv.Major with
      | none => some { st with latestMajors := mapSet st.latestMajors tv.Major tag }
      | some latestMajor =>
        match latestMajor.Version with
        | none => none
        | some lv =>
          if tv.GT lv then some { st with latestMajors := mapSet st.latestMajors tv.Major tag }
          else some st
    else if refV.Minor > tv.Minor then some st
    else if refV.Minor < tv.Major then
      match st.latestMinor.Version with
      | none => none
      | some lv => if tv.GT lv then some { st with latestMinor := tag } else some st
    else
      match st.latestSubminor.Version with
      | none => none
      | some lv => if tv.GT lv then some { st with latestSubminor := tag } else some st

/-- The loop over the sorted majors (lines 368-372). -/
def appendMajors (refV : Version) (m : List (Nat × ImageTag)) :
    List Nat → List ImageTag → Option (List ImageTag)
  | [], newer => some newer
  | major :: rest, newer =>
    match mapGet m major with
    | none => none
    | some t =>
      match t.Version with
      | none => none
      | some v =>
        if refV.LT v then appendMajors refV m rest (newer ++ [t])
        else appendMajors refV m rest newer

/-- The result assembly (lines 362-372). -/
def assemble (refV : Version) (st : ScanState) : Option (List ImageTag) :=
  match st.latestSubminor.Version with
  | none => none
  | some sv =>
    let newer1 : List ImageTag := if refV.LT sv then [st.latestSubminor] else []
    match st.latestMinor.Version with
    | none => none
    | some mv =>
      let newer2 : List ImageTag := if refV.LT mv then newer1 ++ [st.latestMinor] else newer1
      appendMajors refV st.latestMajors (sortedKeys st.latestMajors) newer2

/-- The value `ImageTag{Tag: ref.Tag(), Version: ref.Version}` that seeds
`latestMinor` and `latestSubminor` (lines 328-329). -/
def seedTag (ref : ImageRef) : ImageTag :=
  { Tag := ref.NamedTagged.Tag, Version := ref.Version, CreatedAt := none }

/-- The loop over `tags` (lines 327-360), from the initial values of the three
variables. -/
def scanTags (ref : ImageRef) (refV : Version) (tags : List ImageTag) : Option ScanState :=
  tags.foldlM (scanTag refV)
    { latestMajors := [], latestMinor := seedTag ref, latestSubminor := seedTag ref }

/-- The slice `newer` that `checkVersions` computes for one running reference
and the tag list of its repository (lines 325-381). -/
def newerTags (ref : ImageRef) (tags : List ImageTag) : Option (List ImageTag) :=
  match ref.Version with
  | none => some []
  | some refV =>
    match scanTags ref refV tags with
    | none => none
    | some st => assemble refV st

/-- The tags of a repository as `checkVersions` builds them from the raw tag
strings (lines 317-323). -/
def makeTags (rawTags : List String) : List ImageTag :=
  rawTags.map (fun rawTag => { Tag := rawTag, Version := TryParseSemver rawTag, CreatedAt := none })

/-! ## The event message (root.go, lines 382-404) -/

/-- What one iteration of the loop over `newer[:min(len(newer), 5)]` writes. -/
def writeSuggestion (rfc3339 : Time → String) (msg : String) (ix : Nat) (suggestion : ImageTag) :
    String :=
  let msg1 := if ix ≠ 0 then msg ++ "," else msg
  let msg2 := msg1 ++ " "
  let msg3 := msg2 ++ suggestion.Tag
  match suggestion.CreatedAt with
  | some t => ((msg3 ++ " (") ++ rfc3339 t) ++ ")"
  | none => msg3

/-- The loop over the suggestions, from index `ix` on. -/
def writeSuggestions (rfc3339 : Time → String) : String → Nat → List ImageTag → String
  | msg, _, [] => msg
  | msg, ix, suggestion :: rest =>
    writeSuggestions rfc3339 (writeSuggestion rfc3339 msg ix suggestion) (ix + 1) rest

/-- The message of the event, `none` when `len(newer) == 0` and the loop
continues without an event.  `rfc3339` stands for
`CreatedAt.Format(time.RFC3339)`. -/
def eventMessage (rfc3339 : Time → String) (ref : ImageRef) (newer : List ImageTag) :
    Option String :=
  if newer.length = 0 then none
  else
    let msg0 := (("" ++ "New image version(s) available: ") ++ ref.NamedTagged.String) ++ " ->"
    let msg1 := writeSuggestions rfc3339 msg0 0 (newer.take (min newer.length 5))
    if newer.length > 5 then some (msg1 ++ (" and " ++ toString (newer.length - 5) ++ " more"))
    else some msg1

/-! ## Specification-side definitions -/

/-- The laws of a three-way comparison that induces a total preorder. -/
structure CmpLaws {α : Type} (cmp : α → α → Int) : Prop where
  range : ∀ a b, cmp a b = -1 ∨ cmp a b = 0 ∨ cmp a b = 1
  antisymm : ∀ a b, cmp b a = -cmp a b
  eq_left : ∀ a b c, cmp a b = 0 → cmp a c = cmp b c
  gt_trans : ∀ a b c, cmp a b = 1 → cmp b c = 1 → cmp a c = 1

/-- Three-way comparison of a linear order. -/
def cmpLin {α : Type} [LinearOrder α] (a b : α) : Int :=
  if a = b then 0 else if a > b then 1 else -1

/-- Lexicographic combination of two three-way comparisons. -/
def cmpLex {α : Type} (c1 c2 : α → α → Int) (a b : α) : Int :=
  if c1 a b ≠ 0 then c1 a b else c2 a b

/-- The pre-release part of `Version.Compare`. -/
def cmpPreFull (p q : List PRVersion) : Int :=
  if p.length = 0 ∧ q.length = 0 then 0
  else if p.length = 0 ∧ q.length > 0 then 1
  else if p.length > 0 ∧ q.length = 0 then -1
  else comparePre p q

/-- The tags that carry a parsed version, each paired with that version, in
list order. -/
def versioned (tags : List ImageTag) : List (ImageTag × Version) :=
  tags.filterMap (fun t => t.Version.map (fun v => (t, v)))

/-- The first entry of `l`, in list order, whose version no entry of `l`
exceeds: the entry holding the highest version, the first such entry when
several compare equal. -/
def firstHighest (l : List (ImageTag × Version)) : Option (ImageTag × Version) :=
  l.find? (fun t => l.all (fun x => !(x.2.GT t.2)))

/-- The version-parsed tags whose major is `m`. -/
def withMajor (m : Nat) (tags : List ImageTag) : List (ImageTag × Version) :=
  (versioned tags).filter (fun p => decide (p.2.Major = m))

/-- The distinct majors strictly greater than the major of `cur` that occur
among the version-parsed tags, in ascending order. -/
def higherMajors (cur : Version) (tags : List ImageTag) : List Nat :=
  ((((versioned tags).map (fun p => p.2.Major)).filter
    (fun m => decide (cur.Major < m))).dedup).insertionSort (fun a b => a ≤ b)

/-- The version-parsed tags with the major of `cur` and a minor not smaller
than the minor of `cur`. -/
def sameMajorGroup (cur : Version) (tags : List ImageTag) : List (ImageTag × Version) :=
  (versioned tags).filter (fun p => decide (p.2.Major = cur.Major) && decide (cur.Minor ≤ p.2.Minor))

/-- The candidate with the major of `cur`: the first highest entry of
`sameMajorGroup`, when its version is strictly greater than `cur`. -/
def sameMajorCandidate (cur : Version) (tags : List ImageTag) : List ImageTag :=
  match firstHighest (sameMajorGroup cur tags) with
  | some (t, v) => if cur.LT v then [t] else []
  | none => []

/-- An entry `b` of `l` at a position before which every entry is strictly
lower and after which no entry is higher. -/
def IsFirstMax (l : List (ImageTag × Version)) (b : ImageTag × Version) : Prop :=
  ∃ l1 l2, l = l1 ++ b :: l2 ∧ (∀ y ∈ l1, b.2.GT y.2 = true) ∧ (∀ x ∈ l2, x.2.GT b.2 = false)

/-- The running reference `docker.io/myrepo/app:<tag>`, as `ParseImageRef`
builds it from a tagged reference. -/
def exampleRef (tag : String) : ImageRef :=
  { NamedTagged := .taggedReference "docker.io" "myrepo/app" tag, Version := TryParseSemver tag }

/-- The tag list of the specification's example. -/
def exampleTags : List ImageTag := makeTags ["1.2.1", "1.3.0", "2.0.0", "2.1.0", "0.9.0"]

/-- A tag list with three higher majors, out of order, and two tags of major 2
whose versions compare equal (build identifiers do not count). -/
def mixedTags : List ImageTag :=
  makeTags ["3.0.0", "2.0.0", "2.0.0+b", "10.1.0", "3.0.1", "1.0.0", "1.0.1-rc1", "1.0.1"]

/-- The version `major.minor.patch` without pre-release or build identifiers. -/
def plainVersion (major minor patch : Nat) : Version :=
  { Major := major, Minor := minor, Patch := patch, Pre := [], Build := [] }

/-- The text of one listed candidate: a blank, the tag and, when the creation
time is known, that time in parentheses. -/
def suggestionText (rfc3339 : Time → String) (t : ImageTag) : String :=
  " " ++ t.Tag ++
    (match t.CreatedAt with
     | some c => " (" ++ rfc3339 c ++ ")"
     | none => "")

/-- Seven candidates without creation time. -/
def sevenCandidates : List ImageTag := makeTags ["2", "3", "4", "5", "6", "7", "8"]

/-- One second, in nanoseconds. -/
def second : Time := 1000000000

/-- A stand-in for `time.Parse(time.RFC3339, _)` that knows one timestamp, the
first second of 2026 in UTC, and rejects every other string. -/
def exampleParseRFC3339 (s : String) : Option Time :=
  if s = "2026-01-01T00:00:00Z" then some 1767225600000000000 else none

/-- A stand-in for `dockerref.ParseNormalizedNamed` on the one input
`nginx@sha256:...`: the library returns a `canonicalReference` for a name with
a digest and no tag. -/
def exampleDigestParser (_ : String) : Except String Named :=
  .ok (.canonicalReference "docker.io" "library/nginx"
    "sha256:e3b0c44298fc1c149afbf4c8996fb92427ae41e4649b934ca495991b7852b855")

/-- The character of the decimal digit `k`. -/
def digitChar (k : Nat) : Char := Char.ofNat (48 + k)

/-- The two-digit, zero-padded decimal numeral of `n < 100`. -/
def twoDigits (n : Nat) : List Char := [digitChar (n / 10), digitChar (n % 10)]

/-- The four-digit, zero-padded decimal numeral of `n < 10000`. -/
def fourDigits (n : Nat) : List Char :=
  [digitChar (n / 1000), digitChar (n / 100 % 10), digitChar (n / 10 % 10), digitChar (n % 10)]

/-- The eight-digit tag `YYYYMMDD`. -/
def dateTag (y m d : Nat) : String := String.mk (fourDigits y ++ twoDigits m ++ twoDigits d)

/-- The ten-digit tag `YYYYMMDDHH`. -/
def dateHourTag (y m d h : Nat) : String :=
  String.mk (fourDigits y ++ twoDigits m ++ twoDigits d ++ twoDigits h)

/-- A calendar date: a year of four digits, a month 1 to 12 and a day of that
month in the Gregorian calendar (whose month lengths `daysIn` gives). -/
def validDate (y m d : Nat) : Prop :=
  y < 10000 ∧ 1 ≤ m ∧ m ≤ 12 ∧ 1 ≤ d ∧ d ≤ daysIn m y

instance validDate.decidable (y m d : Nat) : Decidable (validDate y m d) := by
  unfold validDate
  infer_instance

/-- What the scan keeps in one of its two same-major variables: the first
highest entry of the group when that entry exceeds `cur`, the seed otherwise. -/
def SlotInv (cur : Version) (seed : ImageTag) (group : List (ImageTag × Version))
    (slot : ImageTag) : Prop :=
  match firstHighest group with
  | some (t, v) => if v.GT cur then slot = t else slot = seed
  | none => slot = seed

/-- The state of the scan after the tags `pre`. -/
def ScanInv (cur : Version) (seed : ImageTag) (pre : List ImageTag) (st : ScanState) : Prop :=
  (st.latestMajors.map Prod.fst).Nodup ∧
  (∀ k, mapGet st.latestMajors k =
    if cur.Major < k then (firstHighest (withMajor k pre)).map Prod.fst else none) ∧
  (if cur.Minor < cur.Major then
    st.latestSubminor = seed ∧ SlotInv cur seed (sameMajorGroup cur pre) st.latestMinor
   else
    st.latestMinor = seed ∧ SlotInv cur seed (sameMajorGroup cur pre) st.latestSubminor)

/-! ## Theorems -/

theorem CmpLaws.refl {α : Type} {cmp : α → α → Int} (h : CmpLaws cmp) (a : α) : cmp a a = 0 := by
  have := h.antisymm a a
  omega

theorem CmpLaws.eq_right {α : Type} {cmp : α → α → Int} (h : CmpLaws cmp) (a b c : α)
    (hbc : cmp b c = 0) : cmp a c = cmp a b := by
  have h1 := h.antisymm b c
  have h2 := h.eq_left c b a (by omega)
  have h3 := h.antisymm a c
  have h4 := h.antisymm a b
  omega

theorem CmpLaws.lt_trans {α : Type} {cmp : α → α → Int} (h : CmpLaws cmp) (a b c : α)
    (hab : cmp a b = -1) (hbc : cmp b c = -1) : cmp a c = -1 := by
  have h1 := h.antisymm a b
  have h2 := h.antisymm b c
  have h3 := h.gt_trans c b a (by omega) (by omega)
  have h4 := h.antisymm a c
  omega

theorem cmpLin_laws {α : Type} [LinearOrder α] : CmpLaws (cmpLin : α → α → Int) := by
  refine ⟨?_, ?_, ?_, ?_⟩
  · intro a b
    unfold cmpLin
    split_ifs <;> simp
  · intro a b
    unfold cmpLin
    rcases lt_trichotomy a b with h | h | h
    · have h1 : a ≠ b := ne_of_lt h
      have h2 : ¬ a > b := not_lt_of_gt h
      have h3 : b ≠ a := fun e => h1 e.symm
      simp [h1, h2, h3, h]
    · simp [h]
    · have h1 : a ≠ b := ne_of_gt h
      have h2 : ¬ b > a := not_lt_of_gt h
      have h3 : b ≠ a := fun e => h1 e.symm
      simp [h1, h2, h3, h]
  · intro a b c hab
    unfold cmpLin at hab
    have : a = b := by
      by_contra hne
      simp [hne] at hab
      split_ifs at hab
      omega
    rw [this]
  · intro a b c hab hbc
    unfold cmpLin at hab hbc ⊢
    have h1 : a > b := by
      by_contra hn
      split_ifs at hab
      omega
    have h2 : b > c := by
      by_contra hn
      split_ifs at hbc
      omega
    have h3 : a > c := lt_trans h2 h1
    have h4 : a ≠ c := ne_of_gt h3
    simp [h3, h4]

theorem CmpLaws.comap {α β : Type} {cmp : β → β → Int} (h : CmpLaws cmp) (f : α → β) :
    CmpLaws (fun a b => cmp (f a) (f b)) :=
  ⟨fun _ _ => h.range _ _, fun _ _ => h.antisymm _ _, fun _ _ _ => h.eq_left _ _ _,
    fun _ _ _ => h.gt_trans _ _ _⟩

theorem CmpLaws.lex {α : Type} {c1 c2 : α → α → Int} (h1 : CmpLaws c1) (h2 : CmpLaws c2) :
    CmpLaws (cmpLex c1 c2) := by
  refine ⟨?_, ?_, ?_, ?_⟩
  · intro a b
    unfold cmpLex
    split_ifs
    · exact h1.range a b
    · exact h2.range a b
  · intro a b
    unfold cmpLex
    have e1 := h1.antisymm a b
    have e2 := h2.antisymm a b
    split_ifs <;> omega
  · intro a b c hab
    unfold cmpLex at hab ⊢
    have hz1 : c1 a b = 0 := by
      by_contra hne
      simp [hne] at hab
    have hz2 : c2 a b = 0 := by
      simpa [hz1] using hab
    rw [h1.eq_left a b c hz1, h2.eq_left a b c hz2]
  · intro a b c hab hbc
    unfold cmpLex at hab hbc ⊢
    by_cases ha : c1 a b = 0
    · have ha2 : c2 a b = 1 := by simpa [ha] using hab
      rw [h1.eq_left a b c ha]
      by_cases hb : c1 b c = 0
      · have hb2 : c2 b c = 1 := by simpa [hb] using hbc
        simp [hb, h2.gt_trans a b c ha2 hb2]
      · simpa [hb] using hbc
    · have ha1 : c1 a b = 1 := by simpa [ha] using hab
      by_cases hb : c1 b c = 0
      · rw [h1.eq_right a b c hb]
        simp [ha1]
      · have hb1 : c1 b c = 1 := by simpa [hb] using hbc
        simp [h1.gt_trans a b c ha1 hb1]

theorem prCompare_eq (v o : PRVersion) :
    v.Compare o =
      if v.IsNum then (if o.IsNum then cmpLin v.VersionNum o.VersionNum else -1)
      else (if o.IsNum then 1 else cmpLin v.VersionStr o.VersionStr) := by
  unfold PRVersion.Compare cmpLin
  cases v.IsNum <;> cases o.IsNum <;> simp

theorem prCompare_laws : CmpLaws PRVersion.Compare := by
  have hn : CmpLaws (cmpLin : Nat → Nat → Int) := cmpLin_laws
  have hs : CmpLaws (cmpLin : String → String → Int) := cmpLin_laws
  refine ⟨?_, ?_, ?_, ?_⟩
  · intro a b
    rw [prCompare_eq]
    have h1 := hn.range a.VersionNum b.VersionNum
    have h2 := hs.range a.VersionStr b.VersionStr
    split_ifs <;> simp [h1, h2]
  · intro a b
    rw [prCompare_eq, prCompare_eq]
    have h1 := hn.antisymm a.VersionNum b.VersionNum
    have h2 := hs.antisymm a.VersionStr b.VersionStr
    split_ifs <;> simp [h1, h2]
  · intro a b c
    rw [prCompare_eq, prCompare_eq, prCompare_eq]
    have h1 := hn.eq_left a.VersionNum b.VersionNum c.VersionNum
    have h2 := hs.eq_left a.VersionStr b.VersionStr c.VersionStr
    split_ifs <;> first | assumption | simp
  · intro a b c
    rw [prCompare_eq, prCompare_eq, prCompare_eq]
    have h1 := hn.gt_trans a.VersionNum b.VersionNum c.VersionNum
    have h2 := hs.gt_trans a.VersionStr b.VersionStr c.VersionStr
    split_ifs <;> first | assumption | simp

theorem comparePre_cons (a b : PRVersion) (as bs : List PRVersion) :
    comparePre (a :: as) (b :: bs) = cmpLex (fun x y => PRVersion.Compare x.1 y.1)
      (fun x y => comparePre x.2 y.2) (a, as) (b, bs) := by
  have h := prCompare_laws.range a b
  simp only [comparePre, cmpLex]
  rcases h with h | h | h <;> simp [h]

theorem comparePre_laws : CmpLaws comparePre := by
  have hp := prCompare_laws
  have hrange : ∀ a b, comparePre a b = -1 ∨ comparePre a b = 0 ∨ comparePre a b = 1 := by
    intro a
    induction a with
    | nil => intro b; cases b <;> simp [comparePre]
    | cons x xs ih =>
      intro b
      cases b with
      | nil => simp [comparePre]
      | cons y ys =>
        simp only [comparePre]
        split_ifs
        · exact ih ys
        · simp
        · simp
  have hanti : ∀ a b, comparePre b a = -comparePre a b := by
    intro a
    induction a with
    | nil => intro b; cases b <;> simp [comparePre]
    | cons x xs ih =>
      intro b
      cases b with
      | nil => simp [comparePre]
      | cons y ys =>
        have e := hp.antisymm x y
        have r := hp.range x y
        simp only [comparePre]
        rcases r with r | r | r
        · have e2 : y.Compare x = 1 := by omega
          simp [r, e2]
        · have e2 : y.Compare x = 0 := by omega
          simp [r, e2, ih ys]
        · have e2 : y.Compare x = -1 := by omega
          simp [r, e2]
  have heq : ∀ a b c, comparePre a b = 0 → comparePre a c = comparePre b c := by
    intro a
    induction a with
    | nil =>
      intro b c h
      cases b with
      | nil => rfl
      | cons y ys => simp [comparePre] at h
    | cons x xs ih =>
      intro b c h
      cases b with
      | nil => simp [comparePre] at h
      | cons y ys =>
        have r := hp.range x y
        simp only [comparePre] at h
        have hxy : x.Compare y = 0 := by
          rcases r with r | r | r
          · simp [r] at h
          · exact r
          · simp [r] at h
        simp only [hxy, if_true] at h
        cases c with
        | nil => simp [comparePre]
        | cons z zs =>
          simp only [comparePre]
          rw [hp.eq_left x y z hxy, ih ys zs h]
  have hgt : ∀ a b c, comparePre a b = 1 → comparePre b c = 1 → comparePre a c = 1 := by
    intro a
    induction a with
    | nil =>
      intro b c h
      cases b <;> simp [comparePre] at h
    | cons x xs ih =>
      intro b c h1 h2
      cases b with
      | nil => cases c <;> simp [comparePre] at h2
      | cons y ys =>
        cases c with
        | nil => simp [comparePre]
        | cons z zs =>
          have r1 := hp.range x y
          have r2 := hp.range y z
          simp only [comparePre] at h1 h2 ⊢
          rcases r1 with r1 | r1 | r1
          · simp [r1] at h1
          · simp only [r1, if_true] at h1
            rw [hp.eq_left x y z r1]
            rcases r2 with r2 | r2 | r2
            · simp [r2] at h2
            · simp only [r2, if_true] at h2
              simp only [r2, if_true]
              exact ih ys zs h1 h2
            · simp [r2]
          · rcases r2 with r2 | r2 | r2
            · simp [r2] at h2
            · rw [hp.eq_right x y z r2]
              simp [r1]
            · simp [hp.gt_trans x y z r1 r2]
  exact ⟨hrange, hanti, heq, hgt⟩

theorem cmpPreFull_laws : CmpLaws cmpPreFull := by
  have hc := comparePre_laws
  refine ⟨?_, ?_, ?_, ?_⟩
  · intro a b
    have := hc.range a b
    unfold cmpPreFull
    split_ifs <;> simp [this]
  · intro a b
    have := hc.antisymm a b
    cases a <;> cases b <;> simp_all [cmpPreFull]
  · intro a b c h
    have := hc.eq_left a b c
    cases a <;> cases b <;> cases c <;> simp_all [cmpPreFull]
  · intro a b c h1 h2
    have := hc.gt_trans a b c
    cases a <;> cases b <;> cases c <;> simp_all [cmpPreFull]

theorem versionCompare_eq (v o : Version) :
    v.Compare o =
      cmpLex (fun a b => cmpLin a.Major b.Major)
        (cmpLex (fun a b => cmpLin a.Minor b.Minor)
          (cmpLex (fun a b => cmpLin a.Patch b.Patch)
            (fun a b => cmpPreFull a.Pre b.Pre))) v o := by
  unfold Version.Compare cmpLex cmpLin cmpPreFull
  by_cases h1 : v.Major = o.Major
  · by_cases h2 : v.Minor = o.Minor
    · by_cases h3 : v.Patch = o.Patch
      · simp [h1, h2, h3]
      · by_cases h4 : v.Patch > o.Patch <;> simp [h1, h2, h3, h4]
    · by_cases h4 : v.Minor > o.Minor <;> simp [h1, h2, h4]
  · by_cases h4 : v.Major > o.Major <;> simp [h1, h4]

theorem compare_laws : CmpLaws Version.Compare := by
  have hn : CmpLaws (cmpLin : Nat → Nat → Int) := cmpLin_laws
  have h := CmpLaws.lex (hn.comap Version.Major)
    (CmpLaws.lex (hn.comap Version.Minor)
      (CmpLaws.lex (hn.comap Version.Patch) (cmpPreFull_laws.comap Version.Pre)))
  have e : Version.Compare = cmpLex (fun a b => cmpLin a.Major b.Major)
        (cmpLex (fun a b => cmpLin a.Minor b.Minor)
          (cmpLex (fun a b => cmpLin a.Patch b.Patch)
            (fun a b => cmpPreFull a.Pre b.Pre))) := by
    funext v o
    exact versionCompare_eq v o
  rw [e]
  exact h

/-! ### Facts about `GT` and `LT` -/

theorem gt_irrefl (v : Version) : v.GT v = false := by
  simp [Version.GT, compare_laws.refl v]

theorem lt_eq_gt (v o : Version) : v.LT o = o.GT v := by
  have h := compare_laws.antisymm v o
  have e : (v.Compare o = -1) ↔ (o.Compare v = 1) := by omega
  simp [Version.LT, Version.GT, e]

theorem gt_trans {a b c : Version} (h1 : a.GT b = true) (h2 : b.GT c = true) : a.GT c = true := by
  simp only [Version.GT, decide_eq_true_eq] at *
  exact compare_laws.gt_trans a b c h1 h2

theorem gt_asymm {a b : Version} (h : a.GT b = true) : b.GT a = false := by
  have e := compare_laws.antisymm a b
  simp only [Version.GT, decide_eq_true_eq, decide_eq_false_iff_not] at *
  omega

theorem gt_of_gt_of_not_gt {t b x : Version} (h1 : t.GT b = true) (h2 : x.GT b = false) :
    t.GT x = true := by
  have r := compare_laws.range x b
  simp only [Version.GT, decide_eq_true_eq, decide_eq_false_iff_not] at *
  rcases r with r | r | r
  · have e := compare_laws.antisymm x b
    exact compare_laws.gt_trans t b x h1 (by omega)
  · rw [compare_laws.eq_right t x b (by
      have e := compare_laws.antisymm x b
      omega)] at h1
    exact h1
  · exact absurd r h2

theorem not_gt_of_not_gt_of_gt {t b x : Version} (h1 : t.GT b = true) (h2 : x.GT b = false) :
    x.GT t = false := gt_asymm (gt_of_gt_of_not_gt h1 h2)

theorem not_gt_trans {a b c : Version} (h1 : a.GT b = false) (h2 : b.GT c = false) :
    a.GT c = false := by
  by_contra h
  have h3 : a.GT c = true := by simpa using h
  have h4 := gt_of_gt_of_not_gt h3 h2
  rw [h4] at h1
  exact Bool.noConfusion h1

theorem gt_of_major_lt {a b : Version} (h : a.Major < b.Major) : b.GT a = true := by
  have h1 : b.Major ≠ a.Major := by omega
  simp [Version.GT, Version.Compare, h1, h]

theorem major_le_of_gt {a b : Version} (h : b.GT a = true) : a.Major ≤ b.Major := by
  by_contra hlt
  have h1 := gt_of_major_lt (Nat.lt_of_not_le hlt)
  have h2 := gt_asymm h1
  simp [h2] at h

/-! ### Facts about the association list -/

theorem mapGet_mapSet (m : List (Nat × ImageTag)) (k : Nat) (v : ImageTag) (k2 : Nat) :
    mapGet (mapSet m k v) k2 = if k = k2 then some v else mapGet m k2 := by
  induction m with
  | nil => simp [mapSet, mapGet]
  | cons p rest ih =>
    obtain ⟨k1, v1⟩ := p
    by_cases h1 : k1 = k
    · subst h1
      by_cases h2 : k1 = k2 <;> simp [mapSet, mapGet, h2]
    · by_cases h2 : k1 = k2
      · subst h2
        have h3 : ¬ k = k1 := fun e => h1 e.symm
        simp [mapSet, mapGet, h1, h3]
      · simp [mapSet, mapGet, h1, h2, ih]

theorem mem_keys_iff (m : List (Nat × ImageTag)) (k : Nat) :
    k ∈ m.map Prod.fst ↔ mapGet m k ≠ none := by
  induction m with
  | nil => simp [mapGet]
  | cons p rest ih =>
    obtain ⟨k1, v1⟩ := p
    by_cases h : k1 = k
    · simp [mapGet, h]
    · have h2 : ¬ k = k1 := fun e => h e.symm
      simp [mapGet, h, h2, ih]

theorem keys_mapSet_mem (m : List (Nat × ImageTag)) (k : Nat) (v : ImageTag) (k2 : Nat) :
    k2 ∈ (mapSet m k v).map Prod.fst ↔ (k2 = k ∨ k2 ∈ m.map Prod.fst) := by
  rw [mem_keys_iff, mem_keys_iff, mapGet_mapSet]
  by_cases h : k = k2
  · simp [h]
  · have h2 : ¬ k2 = k := fun e => h e.symm
    simp [h, h2]

theorem keys_mapSet_nodup (m : List (Nat × ImageTag)) (k : Nat) (v : ImageTag)
    (h : (m.map Prod.fst).Nodup) : ((mapSet m k v).map Prod.fst).Nodup := by
  induction m with
  | nil => simp [mapSet]
  | cons p rest ih =>
    obtain ⟨k1, v1⟩ := p
    simp only [List.map_cons, List.nodup_cons] at h
    by_cases h1 : k1 = k
    · subst h1
      simpa [mapSet] using h
    · simp only [mapSet, h1, if_false, List.map_cons, List.nodup_cons]
      refine ⟨?_, ih h.2⟩
      intro hmem
      rw [keys_mapSet_mem] at hmem
      rcases hmem with e | e
      · exact h1 e
      · exact h.1 e

/-! ### Facts about `firstHighest` -/

theorem firstHighest_of_isFirstMax {l : List (ImageTag × Version)} {b : ImageTag × Version}
    (h : IsFirstMax l b) : firstHighest l = some b := by
  obtain ⟨l1, l2, hl, h1, h2⟩ := h
  have hb : b ∈ l := by simp [hl]
  have hpb : l.all (fun x => !(x.2.GT b.2)) = true := by
    rw [List.all_eq_true]
    intro x hx
    rw [hl] at hx
    simp only [List.mem_append, List.mem_cons] at hx
    rcases hx with hx | hx | hx
    · simp [gt_asymm (h1 x hx)]
    · simp [hx, gt_irrefl]
    · simp [h2 x hx]
  have hpl : ∀ y ∈ l1, ¬ (l.all (fun x => !(x.2.GT y.2)) = true) := by
    intro y hy hall
    rw [List.all_eq_true] at hall
    have := hall b hb
    simp [h1 y hy] at this
  unfold firstHighest
  generalize hp : (fun t : ImageTag × Version => l.all (fun x => !(x.2.GT t.2))) = p at *
  have hpb2 : p b = true := by rw [← hp]; exact hpb
  have hpl2 : ∀ y ∈ l1, ¬ (p y = true) := by
    intro y hy
    rw [← hp]
    exact hpl y hy
  rw [hl, List.find?_append, List.find?_eq_none.2 hpl2]
  simp [List.find?_cons, hpb2]

theorem isFirstMax_singleton (x : ImageTag × Version) : IsFirstMax [x] x :=
  ⟨[], [], rfl, by simp, by simp⟩

theorem isFirstMax_snoc_gt {l : List (ImageTag × Version)} {b x : ImageTag × Version}
    (h : IsFirstMax l b) (hx : x.2.GT b.2 = true) : IsFirstMax (l ++ [x]) x := by
  obtain ⟨l1, l2, hl, h1, h2⟩ := h
  refine ⟨l, [], rfl, ?_, by simp⟩
  intro y hy
  rw [hl] at hy
  simp only [List.mem_append, List.mem_cons] at hy
  rcases hy with hy | hy | hy
  · exact gt_trans hx (h1 y hy)
  · rw [hy]; exact hx
  · exact gt_of_gt_of_not_gt hx (h2 y hy)

theorem isFirstMax_snoc_not_gt {l : List (ImageTag × Version)} {b x : ImageTag × Version}
    (h : IsFirstMax l b) (hx : x.2.GT b.2 = false) : IsFirstMax (l ++ [x]) b := by
  obtain ⟨l1, l2, hl, h1, h2⟩ := h
  refine ⟨l1, l2 ++ [x], by simp [hl], h1, ?_⟩
  intro y hy
  simp only [List.mem_append, List.mem_singleton] at hy
  rcases hy with hy | hy
  · exact h2 y hy
  · rw [hy]; exact hx

theorem isFirstMax_mem {l : List (ImageTag × Version)} {b : ImageTag × Version}
    (h : IsFirstMax l b) : b ∈ l := by
  obtain ⟨l1, l2, hl, _, _⟩ := h
  simp [hl]

theorem isFirstMax_not_gt {l : List (ImageTag × Version)} {b : ImageTag × Version}
    (h : IsFirstMax l b) : ∀ x ∈ l, x.2.GT b.2 = false := by
  obtain ⟨l1, l2, hl, h1, h2⟩ := h
  intro x hx
  rw [hl] at hx
  simp only [List.mem_append, List.mem_cons] at hx
  rcases hx with hx | hx | hx
  · exact gt_asymm (h1 x hx)
  · rw [hx]; exact gt_irrefl _
  · exact h2 x hx

theorem firstMax_exists (l : List (ImageTag × Version)) :
    (l = [] ∧ firstHighest l = none) ∨ ∃ b, IsFirstMax l b := by
  induction l using List.reverseRecOn with
  | nil => left; exact ⟨rfl, rfl⟩
  | append_singleton l x ih =>
    right
    rcases ih with ⟨hnil, _⟩ | ⟨b, hb⟩
    · subst hnil
      exact ⟨x, isFirstMax_singleton x⟩
    · by_cases hx : x.2.GT b.2 = true
      · exact ⟨x, isFirstMax_snoc_gt hb hx⟩
      · have hx2 : x.2.GT b.2 = false := by simpa using hx
        exact ⟨b, isFirstMax_snoc_not_gt hb hx2⟩

theorem firstHighest_eq_some_iff {l : List (ImageTag × Version)} {b : ImageTag × Version} :
    firstHighest l = some b ↔ IsFirstMax l b := by
  constructor
  · intro h
    rcases firstMax_exists l with ⟨_, hn⟩ | ⟨c, hc⟩
    · rw [hn] at h; exact Option.noConfusion h
    · have := firstHighest_of_isFirstMax hc
      rw [this] at h
      cases h
      exact hc
  · exact firstHighest_of_isFirstMax

theorem firstHighest_eq_none_iff {l : List (ImageTag × Version)} :
    firstHighest l = none ↔ l = [] := by
  constructor
  · intro h
    rcases firstMax_exists l with ⟨hl, _⟩ | ⟨c, hc⟩
    · exact hl
    · rw [firstHighest_of_isFirstMax hc] at h
      exact Option.noConfusion h
  · intro h
    subst h
    rfl

theorem firstHighest_snoc (l : List (ImageTag × Version)) (x : ImageTag × Version) :
    firstHighest (l ++ [x]) =
      match firstHighest l with
      | none => some x
      | some b => if x.2.GT b.2 then some x else some b := by
  rcases firstMax_exists l with ⟨hl, hn⟩ | ⟨b, hb⟩
  · subst hl
    rw [hn]
    exact firstHighest_of_isFirstMax (isFirstMax_singleton x)
  · rw [firstHighest_of_isFirstMax hb]
    by_cases hx : x.2.GT b.2 = true
    · simp only [hx, if_true]
      exact firstHighest_of_isFirstMax (isFirstMax_snoc_gt hb hx)
    · have hx2 : x.2.GT b.2 = false := by simpa using hx
      simp only [hx2]
      exact firstHighest_of_isFirstMax (isFirstMax_snoc_not_gt hb hx2)

/-! ### Facts about the version-parsed tags -/

theorem mem_versioned {tags : List ImageTag} {t : ImageTag} {v : Version} :
    (t, v) ∈ versioned tags ↔ t ∈ tags ∧ t.Version = some v := by
  unfold versioned
  rw [List.mem_filterMap]
  constructor
  · rintro ⟨a, ha, h⟩
    cases hv : a.Version with
    | none => simp [hv] at h
    | some w =>
      simp only [hv, Option.map_some', Option.some.injEq, Prod.mk.injEq] at h
      obtain ⟨h1, h2⟩ := h
      subst h1 h2
      exact ⟨ha, hv⟩
  · rintro ⟨h1, h2⟩
    exact ⟨t, h1, by simp [h2]⟩

theorem versioned_snoc (pre : List ImageTag) (t : ImageTag) :
    versioned (pre ++ [t]) =
      versioned pre ++ (match t.Version with | some v => [(t, v)] | none => []) := by
  unfold versioned
  rw [List.filterMap_append]
  cases h : t.Version <;> simp [List.filterMap, h]

theorem withMajor_snoc_none {t : ImageTag} (hv : t.Version = none) (k : Nat)
    (pre : List ImageTag) : withMajor k (pre ++ [t]) = withMajor k pre := by
  simp [withMajor, versioned_snoc, hv]

theorem withMajor_snoc_some {t : ImageTag} {tv : Version} (hv : t.Version = some tv) (k : Nat)
    (pre : List ImageTag) :
    withMajor k (pre ++ [t]) = withMajor k pre ++ (if tv.Major = k then [(t, tv)] else []) := by
  by_cases h : tv.Major = k <;> simp [withMajor, versioned_snoc, hv, List.filter_cons, h]

theorem sameMajorGroup_snoc_none {t : ImageTag} (hv : t.Version = none) (cur : Version)
    (pre : List ImageTag) : sameMajorGroup cur (pre ++ [t]) = sameMajorGroup cur pre := by
  simp [sameMajorGroup, versioned_snoc, hv]

theorem sameMajorGroup_snoc_some {t : ImageTag} {tv : Version} (hv : t.Version = some tv)
    (cur : Version) (pre : List ImageTag) :
    sameMajorGroup cur (pre ++ [t]) =
      sameMajorGroup cur pre ++
        (if tv.Major = cur.Major ∧ cur.Minor ≤ tv.Minor then [(t, tv)] else []) := by
  by_cases h : tv.Major = cur.Major ∧ cur.Minor ≤ tv.Minor
  · simp [sameMajorGroup, versioned_snoc, hv, List.filter_cons, h]
  · have h2 : ¬ (tv.Major = cur.Major ∧ cur.Minor ≤ tv.Minor) := h
    simp only [sameMajorGroup, versioned_snoc, hv, List.filter_append, h2, if_false,
      List.append_nil]
    rw [List.append_right_eq_self]
    simp only [List.filter_cons, List.filter_nil]
    have h3 : (decide (tv.Major = cur.Major) && decide (cur.Minor ≤ tv.Minor)) = false := by
      simpa using h
    simp [h3]

theorem mem_withMajor_version {k : Nat} {pre : List ImageTag} {p : ImageTag × Version}
    (h : p ∈ withMajor k pre) : p.1.Version = some p.2 ∧ p.2.Major = k ∧ p.1 ∈ pre := by
  unfold withMajor at h
  rw [List.mem_filter] at h
  obtain ⟨h1, h2⟩ := h
  have := (mem_versioned (t := p.1) (v := p.2)).1 h1
  exact ⟨this.2, by simpa using h2, this.1⟩

theorem mem_sameMajorGroup {cur : Version} {pre : List ImageTag} {p : ImageTag × Version}
    (h : p ∈ sameMajorGroup cur pre) :
    p.1.Version = some p.2 ∧ p.2.Major = cur.Major ∧ cur.Minor ≤ p.2.Minor ∧ p.1 ∈ pre := by
  unfold sameMajorGroup at h
  rw [List.mem_filter] at h
  obtain ⟨h1, h2⟩ := h
  have := (mem_versioned (t := p.1) (v := p.2)).1 h1
  simp only [Bool.and_eq_true, decide_eq_true_eq] at h2
  exact ⟨this.2, h2.1, h2.2, this.1⟩

theorem firstHighest_mem {l : List (ImageTag × Version)} {b : ImageTag × Version}
    (h : firstHighest l = some b) : b ∈ l :=
  isFirstMax_mem (firstHighest_eq_some_iff.1 h)

/-! ### The scan keeps its invariant -/

theorem slot_step {cur : Version} {seed : ImageTag} (hseed : seed.Version = some cur)
    {g : List (ImageTag × Version)} (hg : ∀ p ∈ g, p.1.Version = some p.2)
    {slot : ImageTag} (h : SlotInv cur seed g slot) (x : ImageTag × Version) :
    ∃ lv, slot.Version = some lv ∧
      SlotInv cur seed (g ++ [x]) (if x.2.GT lv then x.1 else slot) := by
  unfold SlotInv at h ⊢
  rw [firstHighest_snoc]
  cases hfh : firstHighest g with
  | none =>
    rw [hfh] at h
    subst h
    refine ⟨cur, hseed, ?_⟩
    by_cases hx : x.2.GT cur = true
    · simp [hx]
    · have hx2 : x.2.GT cur = false := by simpa using hx
      simp [hx2]
  | some b =>
    obtain ⟨bt, bv⟩ := b
    rw [hfh] at h
    have hbver : bt.Version = some bv := hg _ (firstHighest_mem hfh)
    by_cases hb : bv.GT cur = true
    · simp only [hb, if_true] at h
      subst h
      refine ⟨bv, hbver, ?_⟩
      by_cases hx : x.2.GT bv = true
      · simp [hx, gt_trans hx hb]
      · have hx2 : x.2.GT bv = false := by simpa using hx
        simp [hx2, hb]
    · have hb2 : bv.GT cur = false := by simpa using hb
      simp only [hb2] at h
      subst h
      refine ⟨cur, hseed, ?_⟩
      by_cases hx : x.2.GT cur = true
      · have hxb : x.2.GT bv = true := gt_of_gt_of_not_gt hx hb2
        simp [hx, hxb]
      · have hx2 : x.2.GT cur = false := by simpa using hx
        by_cases hxb : x.2.GT bv = true
        · simp [hx2, hxb]
        · have hxb2 : x.2.GT bv = false := by simpa using hxb
          simp [hx2, hxb2, hb2]

theorem scanTag_inv {cur : Version} {seed : ImageTag} (hseed : seed.Version = some cur)
    {pre : List ImageTag} {st : ScanState} (h : ScanInv cur seed pre st) (t : ImageTag) :
    ∃ st2, scanTag cur st t = some st2 ∧ ScanInv cur seed (pre ++ [t]) st2 := by
  obtain ⟨hnd, hmap, hslot⟩ := h
  cases hv : t.Version with
  | none =>
    refine ⟨st, by simp [scanTag, hv], hnd, ?_, ?_⟩
    · intro k
      rw [withMajor_snoc_none hv]
      exact hmap k
    · rw [sameMajorGroup_snoc_none hv]
      exact hslot
  | some tv =>
    by_cases h1 : cur.Major > tv.Major
    · -- earlier major: ignored
      refine ⟨st, by simp [scanTag, hv, h1], hnd, ?_, ?_⟩
      · intro k
        by_cases hk : cur.Major < k
        · have hne : ¬ tv.Major = k := by omega
          rw [withMajor_snoc_some hv]
          simp only [hne, if_false, List.append_nil]
          exact hmap k
        · simp only [hk, if_false]
          have := hmap k
          simpa [hk] using this
      · have hne : ¬ (tv.Major = cur.Major ∧ cur.Minor ≤ tv.Minor) := by omega
        rw [sameMajorGroup_snoc_some hv]
        simp only [hne, if_false, List.append_nil]
        exact hslot
    · by_cases h2 : cur.Major < tv.Major
      · -- later major: the map
        have hgrp : sameMajorGroup cur (pre ++ [t]) = sameMajorGroup cur pre := by
          have hne : ¬ (tv.Major = cur.Major ∧ cur.Minor ≤ tv.Minor) := by omega
          rw [sameMajorGroup_snoc_some hv]
          simp only [hne, if_false, List.append_nil]
        have hother : ∀ k, ¬ tv.Major = k → withMajor k (pre ++ [t]) = withMajor k pre := by
          intro k hne
          rw [withMajor_snoc_some hv]
          simp only [hne, if_false, List.append_nil]
        have hself : withMajor tv.Major (pre ++ [t]) = withMajor tv.Major pre ++ [(t, tv)] := by
          rw [withMajor_snoc_some hv]
          simp
        have hget := hmap tv.Major
        simp only [h2, if_true] at hget
        have hset : ∀ nb : ImageTag × Version,
            firstHighest (withMajor tv.Major (pre ++ [t])) = some nb → nb.1 = t →
            ScanInv cur seed (pre ++ [t])
              { st with latestMajors := mapSet st.latestMajors tv.Major t } := by
          intro nb hnb hnbt
          refine ⟨keys_mapSet_nodup _ _ _ hnd, ?_, ?_⟩
          · intro k
            simp only [mapGet_mapSet]
            by_cases hk : tv.Major = k
            · subst hk
              simp [h2, hnb, hnbt]
            · simp only [hk, if_false]
              rw [hother k hk]
              exact hmap k
          · simp only [hgrp]
            exact hslot
        have hkeep : firstHighest (withMajor tv.Major (pre ++ [t])) =
            firstHighest (withMajor tv.Major pre) → ScanInv cur seed (pre ++ [t]) st := by
          intro hsame
          refine ⟨hnd, ?_, ?_⟩
          · intro k
            by_cases hk : tv.Major = k
            · subst hk
              rw [hsame]
              exact hmap _
            · rw [hother k hk]
              exact hmap k
          · rw [hgrp]
            exact hslot
        cases hfh : firstHighest (withMajor tv.Major pre) with
        | none =>
          rw [hfh] at hget
          simp only [Option.map_none'] at hget
          refine ⟨{ st with latestMajors := mapSet st.latestMajors tv.Major t }, ?_, ?_⟩
          · simp [scanTag, hv, h1, h2, hget]
          · apply hset (t, tv) _ rfl
            rw [hself, firstHighest_snoc, hfh]
        | some b =>
          obtain ⟨bt, bv⟩ := b
          rw [hfh] at hget
          simp only [Option.map_some'] at hget
          have hbver : bt.Version = some bv := (mem_withMajor_version (firstHighest_mem hfh)).1
          by_cases hx : tv.GT bv = true
          · refine ⟨{ st with latestMajors := mapSet st.latestMajors tv.Major t }, ?_, ?_⟩
            · simp [scanTag, hv, h1, h2, hget, hbver, hx]
            · apply hset (t, tv) _ rfl
              rw [hself, firstHighest_snoc, hfh]
              simp [hx]
          · have hx2 : tv.GT bv = false := by simpa using hx
            refine ⟨st, ?_, ?_⟩
            · simp [scanTag, hv, h1, h2, hget, hbver, hx2]
            · apply hkeep
              rw [hself, firstHighest_snoc, hfh]
              simp [hx2]
      · -- same major
        have hmaj : tv.Major = cur.Major := by omega
        have hmapkeep : ∀ k, mapGet st.latestMajors k =
            if cur.Major < k then (firstHighest (withMajor k (pre ++ [t]))).map Prod.fst
            else none := by
          intro k
          by_cases hk : cur.Major < k
          · have hne : ¬ tv.Major = k := by omega
            rw [withMajor_snoc_some hv]
            simp only [hne, if_false, List.append_nil]
            exact hmap k
          · simp only [hk, if_false]
            have := hmap k
            simpa [hk] using this
        by_cases h3 : cur.Minor > tv.Minor
        · -- lower minor: ignored
          refine ⟨st, by simp [scanTag, hv, h1, h2, h3], hnd, hmapkeep, ?_⟩
          have hne : ¬ (tv.Major = cur.Major ∧ cur.Minor ≤ tv.Minor) := by omega
          rw [sameMajorGroup_snoc_some hv]
          simp only [hne, if_false, List.append_nil]
          exact hslot
        · have hgrp : sameMajorGroup cur (pre ++ [t]) = sameMajorGroup cur pre ++ [(t, tv)] := by
            have hin : tv.Major = cur.Major ∧ cur.Minor ≤ tv.Minor := ⟨hmaj, by omega⟩
            rw [sameMajorGroup_snoc_some hv]
            simp only [hin, and_self, if_true]
          have hgver : ∀ p ∈ sameMajorGroup cur pre, p.1.Version = some p.2 :=
            fun p hp => (mem_sameMajorGroup hp).1
          by_cases h4 : cur.Minor < cur.Major
          · simp only [h4, if_true] at hslot
            obtain ⟨hsub, hmin⟩ := hslot
            obtain ⟨lv, hlv, hnew⟩ := slot_step hseed hgver hmin (t, tv)
            have h4b : cur.Minor < tv.Major := by omega
            by_cases hx : tv.GT lv = true
            · refine ⟨{ st with latestMinor := t }, ?_, hnd, hmapkeep, ?_⟩
              · simp [scanTag, hv, h1, h2, h3, h4b, hlv, hx]
              · simp only [h4, if_true, hgrp]
                refine ⟨hsub, ?_⟩
                simpa [hx] using hnew
            · have hx2 : tv.GT lv = false := by simpa using hx
              refine ⟨st, ?_, hnd, hmapkeep, ?_⟩
              · simp [scanTag, hv, h1, h2, h3, h4b, hlv, hx2]
              · simp only [h4, if_true, hgrp]
                refine ⟨hsub, ?_⟩
                simpa [hx2] using hnew
          · simp only [h4, if_false] at hslot
            obtain ⟨hmin, hsub⟩ := hslot
            obtain ⟨lv, hlv, hnew⟩ := slot_step hseed hgver hsub (t, tv)
            have h4b : ¬ cur.Minor < tv.Major := by omega
            by_cases hx : tv.GT lv = true
            · refine ⟨{ st with latestSubminor := t }, ?_, hnd, hmapkeep, ?_⟩
              · simp [scanTag, hv, h1, h2, h3, h4b, hlv, hx]
              · simp only [h4, if_false, hgrp]
                refine ⟨hmin, ?_⟩
                simpa [hx] using hnew
            · have hx2 : tv.GT lv = false := by simpa using hx
              refine ⟨st, ?_, hnd, hmapkeep, ?_⟩
              · simp [scanTag, hv, h1, h2, h3, h4b, hlv, hx2]
              · simp only [h4, if_false, hgrp]
                refine ⟨hmin, ?_⟩
                simpa [hx2] using hnew

theorem scan_inv {cur : Version} {seed : ImageTag} (hseed : seed.Version = some cur)
    (tags : List ImageTag) :
    ∀ (pre : List ImageTag) (st : ScanState), ScanInv cur seed pre st →
      ∃ st2, tags.foldlM (scanTag cur) st = some st2 ∧ ScanInv cur seed (pre ++ tags) st2 := by
  induction tags with
  | nil =>
    intro pre st h
    exact ⟨st, rfl, by simpa using h⟩
  | cons t rest ih =>
    intro pre st h
    obtain ⟨st1, hst1, hinv1⟩ := scanTag_inv hseed h t
    obtain ⟨st2, hst2, hinv2⟩ := ih (pre ++ [t]) st1 hinv1
    refine ⟨st2, ?_, by simpa using hinv2⟩
    simp [List.foldlM_cons, hst1, hst2]

theorem scanInv_init (cur : Version) (seed : ImageTag) :
    ScanInv cur seed [] { latestMajors := [], latestMinor := seed, latestSubminor := seed } := by
  refine ⟨by simp, ?_, ?_⟩
  · intro k
    simp [mapGet, withMajor, versioned, firstHighest]
  · simp [SlotInv, sameMajorGroup, versioned, firstHighest]

/-! ### The result assembly -/

theorem appendMajors_eq (cur : Version) (m : List (Nat × ImageTag)) :
    ∀ (keys : List Nat) (newer : List ImageTag),
      (∀ k ∈ keys, ∃ t v, mapGet m k = some t ∧ t.Version = some v ∧ cur.LT v = true) →
      ∃ higher, appendMajors cur m keys newer = some (newer ++ higher) ∧
        higher.map some = keys.map (mapGet m) := by
  intro keys
  induction keys with
  | nil =>
    intro newer _
    exact ⟨[], by simp [appendMajors], rfl⟩
  | cons k rest ih =>
    intro newer h
    obtain ⟨t, v, h1, h2, h3⟩ := h k (List.mem_cons_self k rest)
    obtain ⟨higher, e1, e2⟩ := ih (newer ++ [t]) (fun k2 hk2 => h k2 (List.mem_cons_of_mem k hk2))
    refine ⟨t :: higher, ?_, ?_⟩
    · simp only [appendMajors, h1, h2, h3, if_true]
      rw [e1]
      simp
    · simp [e2, h1]

theorem sortedKeys_eq {cur : Version} {seed : ImageTag} {tags : List ImageTag} {st : ScanState}
    (h : ScanInv cur seed tags st) : sortedKeys st.latestMajors = higherMajors cur tags := by
  obtain ⟨hnd, hmap, _⟩ := h
  unfold sortedKeys higherMajors
  apply List.eq_of_perm_of_sorted (r := fun a b : Nat => a ≤ b) _
    (List.sorted_insertionSort _ _) (List.sorted_insertionSort _ _)
  refine (List.perm_insertionSort _ _).trans (List.Perm.trans ?_ (List.perm_insertionSort _ _).symm)
  rw [List.perm_ext_iff_of_nodup hnd (List.nodup_dedup _)]
  intro k
  rw [mem_keys_iff, hmap k, List.mem_dedup, List.mem_filter, List.mem_map]
  by_cases hk : cur.Major < k
  · simp only [hk, if_true, decide_True, and_true]
    cases hfh : firstHighest (withMajor k tags) with
    | none =>
      have hnil := firstHighest_eq_none_iff.1 hfh
      simp only [Option.map_none', ne_eq, not_true_eq_false, false_iff]
      rintro ⟨p, hp, hpk⟩
      have : p ∈ withMajor k tags := by
        unfold withMajor
        rw [List.mem_filter]
        exact ⟨hp, by simpa using hpk⟩
      rw [hnil] at this
      exact List.not_mem_nil _ this
    | some b =>
      have hb := firstHighest_mem hfh
      unfold withMajor at hb
      rw [List.mem_filter] at hb
      simp only [Option.map_some', ne_eq, not_false_eq_true, true_iff, reduceCtorEq]
      exact ⟨b, hb.1, by simpa using hb.2⟩
  · simp [hk]

theorem assemble_value {cur : Version} {seed : ImageTag} (hsv : seed.Version = some cur)
    {tags : List ImageTag} {st : ScanState} (hinv : ScanInv cur seed tags st) :
    ∃ higher, assemble cur st = some (sameMajorCandidate cur tags ++ higher) ∧
      higher.map some =
        (higherMajors cur tags).map (fun m => (firstHighest (withMajor m tags)).map Prod.fst) := by
  have hkeys := sortedKeys_eq hinv
  obtain ⟨hnd, hmap, hslot⟩ := hinv
  -- the two same-major variables
  have hslotval : ∀ slot, SlotInv cur seed (sameMajorGroup cur tags) slot →
      ∃ sv, slot.Version = some sv ∧
        (if cur.LT sv then [slot] else []) = sameMajorCandidate cur tags := by
    intro slot hs
    unfold SlotInv at hs
    unfold sameMajorCandidate
    cases hfh : firstHighest (sameMajorGroup cur tags) with
    | none =>
      rw [hfh] at hs
      subst hs
      exact ⟨cur, hsv, by simp [lt_eq_gt, gt_irrefl]⟩
    | some b =>
      obtain ⟨bt, bv⟩ := b
      rw [hfh] at hs
      have hbver : bt.Version = some bv := (mem_sameMajorGroup (firstHighest_mem hfh)).1
      by_cases hb : bv.GT cur = true
      · simp only [hb, if_true] at hs
        subst hs
        exact ⟨bv, hbver, rfl⟩
      · have hb2 : bv.GT cur = false := by simpa using hb
        simp only [hb2] at hs
        subst hs
        refine ⟨cur, hsv, ?_⟩
        simp [lt_eq_gt, gt_irrefl, hb2]
  have hseedlt : cur.LT cur = false := by rw [lt_eq_gt]; exact gt_irrefl cur
  -- the majors
  have hmaj : ∀ k ∈ sortedKeys st.latestMajors,
      ∃ t v, mapGet st.latestMajors k = some t ∧ t.Version = some v ∧ cur.LT v = true := by
    intro k hk
    unfold sortedKeys at hk
    rw [(List.perm_insertionSort _ _).mem_iff, mem_keys_iff] at hk
    have hm := hmap k
    by_cases hlt : cur.Major < k
    · simp only [hlt, if_true] at hm
      cases hfh : firstHighest (withMajor k tags) with
      | none => rw [hfh] at hm; exact absurd hm hk
      | some b =>
        rw [hfh] at hm
        obtain ⟨h1, h2, _⟩ := mem_withMajor_version (firstHighest_mem hfh)
        refine ⟨b.1, b.2, by simpa using hm, h1, ?_⟩
        rw [lt_eq_gt]
        exact gt_of_major_lt (by omega)
    · simp only [hlt, if_false] at hm
      exact absurd hm hk
  have hmapfun : (higherMajors cur tags).map (mapGet st.latestMajors) =
      (higherMajors cur tags).map
        (fun m => (firstHighest (withMajor m tags)).map Prod.fst) := by
    apply List.map_congr_left
    intro k hk
    rw [← hkeys] at hk
    obtain ⟨t, v, h1, _, _⟩ := hmaj k hk
    have hm := hmap k
    by_cases hlt : cur.Major < k
    · simpa [hlt] using hm
    · simp only [hlt, if_false] at hm
      rw [hm] at h1
      exact Option.noConfusion h1
  obtain ⟨higher, e1, e2⟩ := appendMajors_eq cur st.latestMajors
    (sortedKeys st.latestMajors) (sameMajorCandidate cur tags) hmaj
  refine ⟨higher, ?_, by rw [e2, hkeys, hmapfun]⟩
  rw [← e1]
  by_cases h4 : cur.Minor < cur.Major
  · simp only [h4, if_true] at hslot
    obtain ⟨hsub, hmin⟩ := hslot
    obtain ⟨mv, hmv, hval⟩ := hslotval _ hmin
    have hsubv : st.latestSubminor.Version = some cur := by rw [hsub]; exact hsv
    simp only [assemble, hsubv, hmv, hseedlt]
    rw [← hval]
    by_cases hlt : cur.LT mv = true
    · simp [hlt]
    · have hlt2 : cur.LT mv = false := by simpa using hlt
      simp [hlt2]
  · simp only [h4, if_false] at hslot
    obtain ⟨hmin, hsub⟩ := hslot
    obtain ⟨sv, hsvv, hval⟩ := hslotval _ hsub
    have hminv : st.latestMinor.Version = some cur := by rw [hmin]; exact hsv
    simp only [assemble, hminv, hsvv, hseedlt]
    rw [← hval]
    simp

theorem scanTags_inv (ref : ImageRef) (cur : Version) (tags : List ImageTag)
    (hcur : ref.Version = some cur) :
    ∃ st, scanTags ref cur tags = some st ∧ ScanInv cur (seedTag ref) tags st := by
  have hsv : (seedTag ref).Version = some cur := hcur
  obtain ⟨st, hst, hinv⟩ := scan_inv hsv tags [] _ (scanInv_init cur (seedTag ref))
  simp only [List.nil_append] at hinv
  exact ⟨st, hst, hinv⟩

/-- The value of `newerTags`: the same-major candidate followed by one
candidate for every higher major. -/
theorem newerTags_value (ref : ImageRef) (cur : Version) (tags : List ImageTag)
    (hcur : ref.Version = some cur) :
    ∃ higher, newerTags ref tags = some (sameMajorCandidate cur tags ++ higher) ∧
      higher.map some =
        (higherMajors cur tags).map (fun m => (firstHighest (withMajor m tags)).map Prod.fst) := by
  obtain ⟨st, hst, hinv⟩ := scanTags_inv ref cur tags hcur
  obtain ⟨higher, e1, e2⟩ := assemble_value hcur hinv
  refine ⟨higher, ?_, e2⟩
  simp only [newerTags, hcur, hst]
  exact e1

theorem mem_higherMajors {cur : Version} {tags : List ImageTag} {m : Nat}
    (h : m ∈ higherMajors cur tags) : cur.Major < m := by
  unfold higherMajors at h
  rw [(List.perm_insertionSort _ _).mem_iff, List.mem_dedup, List.mem_filter] at h
  simpa using h.2

theorem mem_higher {cur : Version} {tags : List ImageTag} {higher : List ImageTag}
    (h : higher.map some =
      (higherMajors cur tags).map (fun m => (firstHighest (withMajor m tags)).map Prod.fst))
    {c : ImageTag} (hc : c ∈ higher) :
    ∃ m v, cur.Major < m ∧ firstHighest (withMajor m tags) = some (c, v) := by
  have h1 : some c ∈ higher.map some := List.mem_map_of_mem _ hc
  rw [h, List.mem_map] at h1
  obtain ⟨m, hm, hfm⟩ := h1
  cases hfh : firstHighest (withMajor m tags) with
  | none => rw [hfh] at hfm; exact Option.noConfusion hfm
  | some b =>
    obtain ⟨bt, bv⟩ := b
    rw [hfh] at hfm
    simp only [Option.map_some', Option.some.injEq] at hfm
    subst hfm
    exact ⟨m, bv, mem_higherMajors hm, hfh⟩

theorem mem_sameMajorCandidate {cur : Version} {tags : List ImageTag} {c : ImageTag}
    (hc : c ∈ sameMajorCandidate cur tags) :
    ∃ v, firstHighest (sameMajorGroup cur tags) = some (c, v) ∧ cur.LT v = true := by
  unfold sameMajorCandidate at hc
  cases hfh : firstHighest (sameMajorGroup cur tags) with
  | none => rw [hfh] at hc; simp at hc
  | some b =>
    obtain ⟨bt, bv⟩ := b
    rw [hfh] at hc
    by_cases hlt : cur.LT bv = true
    · simp only [hlt, if_true, List.mem_singleton] at hc
      subst hc
      exact ⟨bv, rfl, hlt⟩
    · have hlt2 : cur.LT bv = false := by simpa using hlt
      simp [hlt2] at hc

theorem sameMajorCandidate_length (cur : Version) (tags : List ImageTag) :
    (sameMajorCandidate cur tags).length ≤ 1 := by
  unfold sameMajorCandidate
  split
  · split <;> simp
  · simp

/-! ## The claims about the tag scan -/

/-- C1 (evaluation at the specification's example).  For the running tag 1.2.0
and the tags 1.2.1, 1.3.0, 2.0.0, 2.1.0, 0.9.0 the scan returns the two
candidates 1.3.0 and 2.1.0: line 350 compares the minor of the running version
with the major of the tag, so 1.2.1 and 1.3.0 compete for one variable and
1.2.1 is not reported.  The result is not the list 1.2.1, 1.3.0, 2.1.0. -/
theorem newerTags_example :
    newerTags (exampleRef "1.2.0") exampleTags = some (makeTags ["1.3.0", "2.1.0"]) ∧
    decide (newerTags (exampleRef "1.2.0") exampleTags =
      some (makeTags ["1.2.1", "1.3.0", "2.1.0"])) = false := by
  constructor <;> decide

/-- C2.  For a running reference with a parsed version `cur` the result is a
list `same ++ higher`: every candidate of `same` has the major of `cur`, every
candidate of `higher` has a larger major, and `higher` is exactly the list,
over the distinct majors greater than the major of `cur` that occur among the
version-parsed tags, in ascending order, of the first tag holding the highest
version with that major.  Every such major contributes one candidate. -/
theorem higher_major_candidates (ref : ImageRef) (cur : Version) (tags : List ImageTag)
    (hcur : ref.Version = some cur) :
    ∃ same higher, newerTags ref tags = some (same ++ higher) ∧
      (∀ c ∈ same, ∃ v, c.Version = some v ∧ v.Major = cur.Major) ∧
      (∀ c ∈ higher, ∃ v, c.Version = some v ∧ cur.Major < v.Major) ∧
      higher.map some =
        (higherMajors cur tags).map (fun m => (firstHighest (withMajor m tags)).map Prod.fst) ∧
      higher.length = (higherMajors cur tags).length := by
  obtain ⟨higher, e1, e2⟩ := newerTags_value ref cur tags hcur
  refine ⟨sameMajorCandidate cur tags, higher, e1, ?_, ?_, e2, ?_⟩
  · intro c hc
    obtain ⟨v, hfh, _⟩ := mem_sameMajorCandidate hc
    have := mem_sameMajorGroup (firstHighest_mem hfh)
    exact ⟨v, this.1, this.2.1⟩
  · intro c hc
    obtain ⟨m, v, hm, hfh⟩ := mem_higher e2 hc
    have := mem_withMajor_version (firstHighest_mem hfh)
    exact ⟨v, this.1, by rw [this.2.1]; exact hm⟩
  · have := congrArg List.length e2
    simpa using this

/-- Witness for C2: the running tag 1.0.0 against a list with the majors 3, 2,
10 and two equal versions of major 2; the higher majors are 2, 3, 10 and the
result is 1.0.1, 2.0.0, 3.0.1, 10.1.0. -/
theorem higher_major_candidates_witness :
    (exampleRef "1.0.0").Version = some (plainVersion 1 0 0) ∧
    higherMajors (plainVersion 1 0 0) mixedTags = [2, 3, 10] ∧
    newerTags (exampleRef "1.0.0") mixedTags =
      some (makeTags ["1.0.1", "2.0.0", "3.0.1", "10.1.0"]) ∧
    ∃ same higher, newerTags (exampleRef "1.0.0") mixedTags = some (same ++ higher) ∧
      (∀ c ∈ same, ∃ v, c.Version = some v ∧ v.Major = (plainVersion 1 0 0).Major) ∧
      (∀ c ∈ higher, ∃ v, c.Version = some v ∧ (plainVersion 1 0 0).Major < v.Major) ∧
      higher.map some =
        (higherMajors (plainVersion 1 0 0) mixedTags).map
          (fun m => (firstHighest (withMajor m mixedTags)).map Prod.fst) ∧
      higher.length = (higherMajors (plainVersion 1 0 0) mixedTags).length :=
  ⟨by decide, by decide, by decide,
    higher_major_candidates (exampleRef "1.0.0") (plainVersion 1 0 0) mixedTags (by decide)⟩

/-- C3.  For a running reference with a parsed version `cur` the scan returns a
list, and every candidate in it is one of the given tags, carries a parsed
version strictly greater than `cur`, and has a major not smaller than the major
of `cur`; a tag whose major is smaller is not in the result. -/
theorem candidates_are_upgrades (ref : ImageRef) (cur : Version) (tags : List ImageTag)
    (hcur : ref.Version = some cur) :
    ∃ res, newerTags ref tags = some res ∧
      (∀ c ∈ res, c ∈ tags ∧ ∃ v, c.Version = some v ∧ cur.LT v = true ∧ cur.Major ≤ v.Major) ∧
      (∀ t ∈ tags, ∀ w, t.Version = some w → w.Major < cur.Major → t ∉ res) := by
  obtain ⟨higher, e1, e2⟩ := newerTags_value ref cur tags hcur
  have hall : ∀ c ∈ sameMajorCandidate cur tags ++ higher,
      c ∈ tags ∧ ∃ v, c.Version = some v ∧ cur.LT v = true ∧ cur.Major ≤ v.Major := by
    intro c hc
    rw [List.mem_append] at hc
    rcases hc with hc | hc
    · obtain ⟨v, hfh, hlt⟩ := mem_sameMajorCandidate hc
      have := mem_sameMajorGroup (firstHighest_mem hfh)
      exact ⟨this.2.2.2, v, this.1, hlt, by rw [this.2.1]⟩
    · obtain ⟨m, v, hm, hfh⟩ := mem_higher e2 hc
      have := mem_withMajor_version (firstHighest_mem hfh)
      have hmaj : cur.Major < v.Major := by rw [this.2.1]; exact hm
      refine ⟨this.2.2, v, this.1, ?_, by omega⟩
      rw [lt_eq_gt]
      exact gt_of_major_lt hmaj
  refine ⟨_, e1, hall, ?_⟩
  intro t _ w hw hlt hmem
  obtain ⟨_, v, hv, _, hle⟩ := hall t hmem
  rw [hw] at hv
  cases hv
  omega

/-- Witness for C3: the running tag 1.2.0 against the example tags. -/
theorem candidates_are_upgrades_witness :
    (exampleRef "1.2.0").Version = some (plainVersion 1 2 0) ∧
    ∃ res, newerTags (exampleRef "1.2.0") exampleTags = some res ∧
      (∀ c ∈ res, c ∈ exampleTags ∧ ∃ v, c.Version = some v ∧
        (plainVersion 1 2 0).LT v = true ∧ (plainVersion 1 2 0).Major ≤ v.Major) ∧
      (∀ t ∈ exampleTags, ∀ w, t.Version = some w → w.Major < (plainVersion 1 2 0).Major →
        t ∉ res) :=
  ⟨by decide, candidates_are_upgrades (exampleRef "1.2.0") (plainVersion 1 2 0) exampleTags
    (by decide)⟩

/-- C10.  For a running reference with a parsed version `cur` the scan ends in
a state in which one of the two same-major variables still holds its seed:
`latestSubminor` when the minor of `cur` is smaller than its major,
`latestMinor` otherwise.  The result holds at most one candidate with the major
of `cur`; that candidate is one of the tags, its minor is not smaller than the
minor of `cur`, and no tag with the major of `cur` and a minor not smaller than
the minor of `cur` has a higher version. -/
theorem same_major_single_candidate (ref : ImageRef) (cur : Version) (tags : List ImageTag)
    (hcur : ref.Version = some cur) :
    ∃ st res, scanTags ref cur tags = some st ∧ newerTags ref tags = some res ∧
      (if cur.Minor < cur.Major then st.latestSubminor = seedTag ref
        else st.latestMinor = seedTag ref) ∧
      (res.filter (fun c => decide (c.Version.map Version.Major = some cur.Major))).length ≤ 1 ∧
      (∀ c ∈ res, ∀ v, c.Version = some v → v.Major = cur.Major →
        c ∈ tags ∧ cur.Minor ≤ v.Minor ∧
        ∀ t ∈ tags, ∀ w, t.Version = some w → w.Major = cur.Major → cur.Minor ≤ w.Minor →
          w.GT v = false) := by
  obtain ⟨st, hst, hinv⟩ := scanTags_inv ref cur tags hcur
  obtain ⟨higher, e1, e2⟩ := newerTags_value ref cur tags hcur
  have hhigh : ∀ c ∈ higher, ∃ v, c.Version = some v ∧ cur.Major < v.Major := by
    intro c hc
    obtain ⟨m, v, hm, hfh⟩ := mem_higher e2 hc
    have := mem_withMajor_version (firstHighest_mem hfh)
    exact ⟨v, this.1, by rw [this.2.1]; exact hm⟩
  refine ⟨st, _, hst, e1, ?_, ?_, ?_⟩
  · obtain ⟨_, _, hslot⟩ := hinv
    by_cases h4 : cur.Minor < cur.Major
    · simp only [h4, if_true] at hslot ⊢
      exact hslot.1
    · simp only [h4, if_false] at hslot ⊢
      exact hslot.1
  · rw [List.filter_append]
    have hnil : higher.filter
        (fun c => decide (c.Version.map Version.Major = some cur.Major)) = [] := by
      rw [List.filter_eq_nil_iff]
      intro c hc
      obtain ⟨v, hv, hlt⟩ := hhigh c hc
      simp only [hv, Option.map_some', Option.some.injEq, decide_eq_true_eq]
      omega
    rw [hnil, List.append_nil]
    exact le_trans (List.length_filter_le _ _) (sameMajorCandidate_length cur tags)
  · intro c hc v hv hmaj
    rw [List.mem_append] at hc
    rcases hc with hc | hc
    · obtain ⟨v2, hfh, _⟩ := mem_sameMajorCandidate hc
      have hmem := mem_sameMajorGroup (firstHighest_mem hfh)
      have hv2 : v2 = v := by
        have := hmem.1
        simp only at this
        rw [hv] at this
        cases this
        rfl
      subst hv2
      refine ⟨hmem.2.2.2, hmem.2.2.1, ?_⟩
      intro t ht w hw hwmaj hwmin
      have hin : (t, w) ∈ sameMajorGroup cur tags := by
        unfold sameMajorGroup
        rw [List.mem_filter]
        exact ⟨mem_versioned.2 ⟨ht, hw⟩, by simp [hwmaj, hwmin]⟩
      exact isFirstMax_not_gt (firstHighest_eq_some_iff.1 hfh) (t, w) hin
    · obtain ⟨v2, hv2, hlt⟩ := hhigh c hc
      rw [hv] at hv2
      cases hv2
      omega

/-- Witness for C10: the running tag 1.2.0 against the example tags. -/
theorem same_major_single_candidate_witness :
    (exampleRef "1.2.0").Version = some (plainVersion 1 2 0) ∧
    ∃ st res, scanTags (exampleRef "1.2.0") (plainVersion 1 2 0) exampleTags = some st ∧
      newerTags (exampleRef "1.2.0") exampleTags = some res ∧
      (if (plainVersion 1 2 0).Minor < (plainVersion 1 2 0).Major then
        st.latestSubminor = seedTag (exampleRef "1.2.0")
        else st.latestMinor = seedTag (exampleRef "1.2.0")) ∧
      (res.filter (fun c => decide (c.Version.map Version.Major =
        some (plainVersion 1 2 0).Major))).length ≤ 1 ∧
      (∀ c ∈ res, ∀ v, c.Version = some v → v.Major = (plainVersion 1 2 0).Major →
        c ∈ exampleTags ∧ (plainVersion 1 2 0).Minor ≤ v.Minor ∧
        ∀ t ∈ exampleTags, ∀ w, t.Version = some w → w.Major = (plainVersion 1 2 0).Major →
          (plainVersion 1 2 0).Minor ≤ w.Minor → w.GT v = false) :=
  ⟨by decide, same_major_single_candidate (exampleRef "1.2.0") (plainVersion 1 2 0) exampleTags
    (by decide)⟩

/-! ## The event message -/

theorem writeSuggestion_eq (rfc3339 : Time → String) (pre acc : String) (ix : Nat)
    (t : ImageTag) :
    writeSuggestion rfc3339 (pre ++ acc) (ix + 1) t =
      pre ++ (acc ++ "," ++ suggestionText rfc3339 t) := by
  unfold writeSuggestion suggestionText
  have h : ix + 1 ≠ 0 := Nat.succ_ne_zero ix
  cases t.CreatedAt <;> simp only [h, ne_eq, not_false_eq_true, if_true, String.append_assoc,
    String.append_empty]

theorem writeSuggestions_eq (rfc3339 : Time → String) (pre : String) :
    ∀ (l : List ImageTag) (acc : String) (ix : Nat),
      writeSuggestions rfc3339 (pre ++ acc) (ix + 1) l =
        pre ++ String.intercalate.go acc "," (l.map (suggestionText rfc3339)) := by
  intro l
  induction l with
  | nil => intro acc ix; simp [writeSuggestions, String.intercalate.go]
  | cons t rest ih =>
    intro acc ix
    simp only [writeSuggestions, List.map_cons, String.intercalate.go]
    rw [writeSuggestion_eq, ih]

theorem writeSuggestions_zero (rfc3339 : Time → String) (pre : String) (l : List ImageTag) :
    writeSuggestions rfc3339 pre 0 l =
      pre ++ String.intercalate "," (l.map (suggestionText rfc3339)) := by
  cases l with
  | nil => simp [writeSuggestions, String.intercalate]
  | cons t rest =>
    simp only [writeSuggestions, List.map_cons, String.intercalate]
    have h : writeSuggestion rfc3339 pre 0 t = pre ++ suggestionText rfc3339 t := by
      unfold writeSuggestion suggestionText
      cases t.CreatedAt <;> simp only [ne_eq, not_true_eq_false, if_false, String.append_assoc,
        String.append_empty]
    rw [h, writeSuggestions_eq]

/-- C9.  For a non-empty candidate list of length `n` the message is the fixed
label, the current reference, the arrow `" ->"`, the texts of the first
`min n 5` candidates in order, separated by commas (each a blank, the tag and
the creation time when known), and then `" and <n-5> more"` when `n > 5` and
nothing when `n ≤ 5`. -/
theorem eventMessage_format (rfc3339 : Time → String) (ref : ImageRef) (newer : List ImageTag)
    (hne : newer ≠ []) :
    eventMessage rfc3339 ref newer =
      some ("New image version(s) available: " ++ ref.NamedTagged.String ++ " ->" ++
        String.intercalate ","
          ((newer.take (min newer.length 5)).map (suggestionText rfc3339)) ++
        (if newer.length > 5 then " and " ++ toString (newer.length - 5) ++ " more" else "")) := by
  have hlen : newer.length ≠ 0 := by
    intro h
    exact hne (List.length_eq_zero.1 h)
  unfold eventMessage
  simp only [hlen, if_false, writeSuggestions_zero]
  by_cases h5 : newer.length > 5
  · simp [h5, String.append_assoc]
  · simp [h5, String.append_assoc]

/-- Witness for C9: seven candidates; five are listed and the message ends
with "and 2 more". -/
theorem eventMessage_format_witness :
    sevenCandidates ≠ [] ∧
    eventMessage (fun _ => "") (exampleRef "1.2.0") sevenCandidates =
      some ("New image version(s) available: docker.io/myrepo/app:1.2.0 ->" ++
        " 2, 3, 4, 5, 6" ++ " and 2 more") ∧
    eventMessage (fun _ => "") (exampleRef "1.2.0") sevenCandidates =
      some ("New image version(s) available: " ++ (exampleRef "1.2.0").NamedTagged.String ++
        " ->" ++
        String.intercalate ","
          ((sevenCandidates.take (min sevenCandidates.length 5)).map
            (suggestionText (fun _ => ""))) ++
        (if sevenCandidates.length > 5 then
          " and " ++ toString (sevenCandidates.length - 5) ++ " more" else "")) :=
  ⟨by decide, by decide,
    eventMessage_format (fun _ => "") (exampleRef "1.2.0") sevenCandidates (by decide)⟩

/-! ## The rate-limit gate -/

/-- C4.  The gate answers due when the annotation is absent or does not parse
as an RFC 3339 instant; for a parsed marker it answers due exactly when
`marker + interval ≤ now`.  In particular the markers `now - interval - 1s` and
`now - interval` are due and the marker `now - interval + 1s` is not. -/
theorem shouldCheck_due (parseRFC3339 : String → Option Time) (now interval : Time) :
    shouldCheck parseRFC3339 none now interval = true ∧
    (∀ s, parseRFC3339 s = none → shouldCheck parseRFC3339 (some s) now interval = true) ∧
    (∀ s marker, parseRFC3339 s = some marker →
      ((shouldCheck parseRFC3339 (some s) now interval = true ↔ marker + interval ≤ now) ∧
       (marker = now - interval - second →
          shouldCheck parseRFC3339 (some s) now interval = true) ∧
       (marker = now - interval → shouldCheck parseRFC3339 (some s) now interval = true) ∧
       (marker = now - interval + second →
          shouldCheck parseRFC3339 (some s) now interval = false))) := by
  refine ⟨rfl, ?_, ?_⟩
  · intro s hs
    simp [shouldCheck, hs]
  · intro s marker hs
    have hiff : shouldCheck parseRFC3339 (some s) now interval = true ↔
        marker + interval ≤ now := by
      simp only [shouldCheck, hs]
      by_cases h : marker + interval > now
      · simp only [h, if_true]
        constructor
        · intro hf; exact Bool.noConfusion hf
        · intro hle; exact absurd h (not_lt.2 hle)
      · simp only [h, if_false, true_iff]
        exact not_lt.1 h
    refine ⟨hiff, ?_, ?_, ?_⟩
    · intro hm
      rw [hiff, hm]
      unfold second
      linarith
    · intro hm
      rw [hiff, hm]
      linarith
    · intro hm
      have hn : ¬ (marker + interval ≤ now) := by
        rw [hm]
        unfold second
        linarith
      rw [← hiff] at hn
      simpa using hn

/-- Witness for C4: a marker at the first second of 2026 and an interval of 24
hours; one second before the interval has elapsed the pod is skipped, and from
the instant it has elapsed the pod is checked. -/
theorem shouldCheck_due_witness :
    exampleParseRFC3339 "2026-01-01T00:00:00Z" = some 1767225600000000000 ∧
    (shouldCheck exampleParseRFC3339 (some "2026-01-01T00:00:00Z")
        (1767225600000000000 + 86400 * second) (86400 * second) = true ↔
      (1767225600000000000 : Time) + 86400 * second ≤
        1767225600000000000 + 86400 * second) ∧
    shouldCheck exampleParseRFC3339 (some "2026-01-01T00:00:00Z")
        (1767225600000000000 + 86400 * second - second) (86400 * second) = false ∧
    shouldCheck exampleParseRFC3339 (some "not a time")
        (1767225600000000000 + second) (86400 * second) = true :=
  ⟨by decide,
    ((shouldCheck_due exampleParseRFC3339 (1767225600000000000 + 86400 * second)
      (86400 * second)).2.2 "2026-01-01T00:00:00Z" 1767225600000000000 (by decide)).1,
    by decide, by decide⟩

/-! ## `TryParseSemver` -/

theorem digitChar_facts (k : Nat) (hk : k < 10) :
    isNumber (digitChar k) = true ∧ digitVal (digitChar k) = k ∧
      (digitChar k).utf8Size = 1 := by
  interval_cases k <;> decide

theorem parseYMD_digits (y m d : Nat) (rest : List Char) (hy : y < 10000) (hm1 : 1 ≤ m)
    (hm2 : m ≤ 12) (hd : d < 100) :
    parseYMD (fourDigits y ++ twoDigits m ++ twoDigits d ++ rest) = some (y, m, d, rest) := by
  obtain ⟨a1, a2, _⟩ := digitChar_facts (y / 1000) (by omega)
  obtain ⟨b1, b2, _⟩ := digitChar_facts (y / 100 % 10) (by omega)
  obtain ⟨c1, c2, _⟩ := digitChar_facts (y / 10 % 10) (by omega)
  obtain ⟨d1, d2, _⟩ := digitChar_facts (y % 10) (by omega)
  obtain ⟨e1, e2, _⟩ := digitChar_facts (m / 10) (by omega)
  obtain ⟨f1, f2, _⟩ := digitChar_facts (m % 10) (by omega)
  obtain ⟨g1, g2, _⟩ := digitChar_facts (d / 10) (by omega)
  obtain ⟨h1, h2, _⟩ := digitChar_facts (d % 10) (by omega)
  have hyv : decimalValue (fourDigits y) = y := by
    simp only [decimalValue, fourDigits, List.foldl, a2, b2, c2, d2]
    omega
  have hmne : ¬ (m / 10 * 10 + m % 10 = 0 ∨ 12 < m / 10 * 10 + m % 10) := by omega
  simp only [parseYMD, fourDigits, twoDigits, List.cons_append, List.nil_append, getLongYear,
    a1, b1, c1, d1, Bool.and_self, if_true, getnum, e1, f1, g1, h1, Bool.not_true,
    Bool.false_eq_true, if_false, e2, f2, g2, h2, hmne]
  have := hyv
  simp only [fourDigits] at this
  rw [this]
  have e3 : m / 10 * 10 + m % 10 = m := by omega
  have e4 : d / 10 * 10 + d % 10 = d := by omega
  rw [e3, e4]

theorem daysIn_le (m y : Nat) : daysIn m y ≤ 31 := by
  unfold daysIn
  split_ifs <;> omega

theorem timeParseYMD_date (y m d : Nat) (h : validDate y m d) :
    timeParseYMD (dateTag y m d).data = true := by
  obtain ⟨hy, hm1, hm2, hd1, hd2⟩ := h
  have hd : d < 100 := by have := daysIn_le m y; omega
  have hp := parseYMD_digits y m d [] hy hm1 hm2 hd
  simp only [List.append_nil] at hp
  have hdata : (dateTag y m d).data = fourDigits y ++ twoDigits m ++ twoDigits d := rfl
  rw [hdata]
  unfold timeParseYMD
  rw [hp]
  simp [goLen, hd1, hd2]

theorem getnum_twoDigits (h : Nat) (hh : h < 100) : getnum (twoDigits h) true = some (h, []) := by
  obtain ⟨a1, a2, _⟩ := digitChar_facts (h / 10) (by omega)
  obtain ⟨b1, b2, _⟩ := digitChar_facts (h % 10) (by omega)
  simp only [getnum, twoDigits, a1, b1, a2, b2, Bool.not_true, Bool.false_eq_true, if_false]
  have e : h / 10 * 10 + h % 10 = h := by omega
  rw [e]

theorem timeParseYMDH_dateHour (y m d h : Nat) (hv : validDate y m d) (hh : h < 100) :
    timeParseYMD (dateHourTag y m d h).data = false ∧
    timeParseYMDH (dateHourTag y m d h).data = decide (h ≤ 12) := by
  obtain ⟨hy, hm1, hm2, hd1, hd2⟩ := hv
  have hd : d < 100 := by have := daysIn_le m y; omega
  have hp := parseYMD_digits y m d (twoDigits h) hy hm1 hm2 hd
  obtain ⟨_, _, a3⟩ := digitChar_facts (h / 10) (by omega)
  obtain ⟨_, _, b3⟩ := digitChar_facts (h % 10) (by omega)
  have hdata : (dateHourTag y m d h).data =
      fourDigits y ++ twoDigits m ++ twoDigits d ++ twoDigits h := rfl
  rw [hdata]
  constructor
  · unfold timeParseYMD
    rw [hp]
    simp [goLen, twoDigits, a3, b3]
  · unfold timeParseYMDH
    rw [hp]
    simp only [getnum_twoDigits h hh]
    by_cases h12 : h ≤ 12
    · have hn : ¬ 12 < h := by omega
      simp [goLen, hd1, hd2, h12, hn]
    · have hn : 12 < h := by omega
      simp [h12, hn]

/-- C5 (evaluation at the failing input).  The ten-digit tag `2026010115`, the
date 2026-01-01 followed by the hour 15, is not rejected as a date: the layout
`"2006010203"` reads its last two digits as an hour of the 12-hour clock, so the
tag goes on to the tolerant parse and yields the major version 2026010115.
Every eight-digit calendar date yields none, and a ten-digit tag made of a
calendar date and two more digits `HH` is taken for a date exactly when
`HH ≤ 12`, in which case it yields none. -/
theorem tryParseSemver_date_with_hour :
    dateHourTag 2026 1 1 15 = "2026010115" ∧
    TryParseSemver "2026010115" = some (plainVersion 2026010115 0 0) ∧
    (∀ y m d, validDate y m d → TryParseSemver (dateTag y m d) = none) ∧
    (∀ y m d h, validDate y m d → h < 100 →
      timeParseYMD (dateHourTag y m d h).data = false ∧
      timeParseYMDH (dateHourTag y m d h).data = decide (h ≤ 12) ∧
      (h ≤ 12 → TryParseSemver (dateHourTag y m d h) = none)) := by
  refine ⟨by decide, by decide, ?_, ?_⟩
  · intro y m d hv
    simp [TryParseSemver, timeParseYMD_date y m d hv]
  · intro y m d h hv hh
    obtain ⟨e1, e2⟩ := timeParseYMDH_dateHour y m d h hv hh
    refine ⟨e1, e2, ?_⟩
    intro h12
    simp [TryParseSemver, e1, e2, h12]

/-- Witness for C5: the date 2026-01-01, alone and followed by the hours 12
and 15. -/
theorem tryParseSemver_date_with_hour_witness :
    validDate 2026 1 1 ∧
    dateTag 2026 1 1 = "20260101" ∧ TryParseSemver (dateTag 2026 1 1) = none ∧
    dateHourTag 2026 1 1 12 = "2026010112" ∧ TryParseSemver (dateHourTag 2026 1 1 12) = none ∧
    timeParseYMDH (dateHourTag 2026 1 1 15).data = decide (15 ≤ 12) :=
  ⟨by decide, by decide,
    tryParseSemver_date_with_hour.2.2.1 2026 1 1 (by decide), by decide,
    (tryParseSemver_date_with_hour.2.2.2 2026 1 1 12 (by decide) (by decide)).2.2 (by decide),
    (tryParseSemver_date_with_hour.2.2.2 2026 1 1 15 (by decide) (by decide)).2.1⟩

/-- C6 (evaluation at the failing input).  The tag `99999`, a bare integer
above 10,000, parses tolerantly and is returned as the version 99999.0.0: the
dot test of line 213 is reached only when the tolerant parse of the whole tag
has failed.  There it rejects every tag without a dot, whatever the integer:
`1-foo` yields none. -/
theorem tryParseSemver_bare_integer :
    TryParseSemver "99999" = some (plainVersion 99999 0 0) ∧
    TryParseSemver "1" = some (plainVersion 1 0 0) ∧
    TryParseSemver "1-foo" = none ∧
    TryParseSemver "v10001" = some (plainVersion 10001 0 0) := by
  refine ⟨?_, ?_, ?_, ?_⟩ <;> decide

/-- C7 (evaluation at the failing inputs).  The tags `1.2.3-foo` and
`1.2.3-foo1.2.3` parse tolerantly as a whole, so lines 205-208 return them with
their pre-release identifiers and the split on `-` is never reached: the
version of `1.2.3-foo` is not the version 1.2.3 of the tag `1.2.3` but lower,
and for the running tag `1.2.3-foo` the available tag `1.2.3` is reported as an
upgrade.  For every tag that is not a date stamp the result is the whole-tag
parse when there is one; otherwise it is none when the tag has no dot, and the
tolerant parse of the part before the first `-` when it has one: `1.2-foo`
yields 1.2.0, the value of `1.2`, and `1-foo` yields none. -/
theorem tryParseSemver_suffix (s : String) (hd8 : timeParseYMD s.data = false)
    (hd10 : timeParseYMDH s.data = false) :
    TryParseSemver s =
      (match ParseTolerant s.data with
       | some v => some v
       | none =>
         if (split '.' s.data).length = 1 then none
         else ParseTolerant ((split '-' s.data).headD [])) ∧
    TryParseSemver "1.2.3-foo" =
      some { Major := 1, Minor := 2, Patch := 3,
             Pre := [{ VersionStr := "foo", VersionNum := 0, IsNum := false }], Build := [] } ∧
    TryParseSemver "1.2.3-foo1.2.3" =
      some { Major := 1, Minor := 2, Patch := 3,
             Pre := [{ VersionStr := "foo1", VersionNum := 0, IsNum := false },
                     { VersionStr := "", VersionNum := 2, IsNum := true },
                     { VersionStr := "", VersionNum := 3, IsNum := true }], Build := [] } ∧
    TryParseSemver "1.2.3" = some (plainVersion 1 2 3) ∧
    decide (TryParseSemver "1.2.3-foo" = TryParseSemver "1.2.3") = false ∧
    decide (TryParseSemver "1.2.3-foo1.2.3" = TryParseSemver "1.2.3") = false ∧
    (plainVersion 1 2 3).GT
      { Major := 1, Minor := 2, Patch := 3,
        Pre := [{ VersionStr := "foo", VersionNum := 0, IsNum := false }], Build := [] } = true ∧
    newerTags (exampleRef "1.2.3-foo") (makeTags ["1.2.3"]) = some (makeTags ["1.2.3"]) ∧
    TryParseSemver "v1.2" = some (plainVersion 1 2 0) ∧
    TryParseSemver "1.2-foo" = some (plainVersion 1 2 0) ∧
    TryParseSemver "1.2" = some (plainVersion 1 2 0) ∧
    TryParseSemver "1-foo" = none := by
  refine ⟨?_, by decide, by decide, by decide, by decide, by decide, by decide, by decide,
    by decide, by decide, by decide, by decide⟩
  simp only [TryParseSemver, hd8, hd10]
  cases ParseTolerant s.data with
  | some v => simp
  | none =>
    cases hp : ParseTolerant ((split '-' s.data).headD []) with
    | none => simp
    | some v =>
      by_cases hdot : (split '.' s.data).length = 1
      · simp [hdot]
      · simp [hdot]

/-- Witness for C7: the dotless tag `1-foo`, which is no date stamp and does
not parse as a whole, yields none although its part before the `-` parses. -/
theorem tryParseSemver_suffix_witness :
    timeParseYMD "1-foo".data = false ∧ timeParseYMDH "1-foo".data = false ∧
    ParseTolerant "1-foo".data = none ∧ (split '.' "1-foo".data).length = 1 ∧
    ParseTolerant ((split '-' "1-foo".data).headD []) = some (plainVersion 1 0 0) ∧
    TryParseSemver "1-foo" =
      (match ParseTolerant "1-foo".data with
       | some v => some v
       | none =>
         if (split '.' "1-foo".data).length = 1 then none
         else ParseTolerant ((split '-' "1-foo".data).headD [])) :=
  ⟨by decide, by decide, by decide, by decide, by decide,
    (tryParseSemver_suffix "1-foo" (by decide) (by decide)).1⟩

/-! ## `ParseImageRef` -/

/-- C8 (evaluation at the failing inputs).  Whenever the reference parser
returns a reference with a digest and no tag, `ParseImageRef` neither returns a
reference nor an error: `TagNameOnly` leaves the reference as it is and the
type assertion to `NamedTagged` panics. -/
theorem parseImageRef_digest_only (parseNormalizedNamed : String → Except String Named)
    (s domain path digest : String)
    (hparse : parseNormalizedNamed s = .ok (.canonicalReference domain path digest))
    (hdomain : domain ≠ "") :
    ParseImageRef parseNormalizedNamed s = .panicked := by
  simp [ParseImageRef, hparse, Named.domain, hdomain, TagNameOnly, IsNameOnly, assertNamedTagged]

/-- Witness for C8: the image `nginx@sha256:...`. -/
theorem parseImageRef_digest_only_witness :
    exampleDigestParser
        "nginx@sha256:e3b0c44298fc1c149afbf4c8996fb92427ae41e4649b934ca495991b7852b855" =
      .ok (.canonicalReference "docker.io" "library/nginx"
        "sha256:e3b0c44298fc1c149afbf4c8996fb92427ae41e4649b934ca495991b7852b855") ∧
    ParseImageRef exampleDigestParser
        "nginx@sha256:e3b0c44298fc1c149afbf4c8996fb92427ae41e4649b934ca495991b7852b855" =
      .panicked :=
  ⟨rfl, parseImageRef_digest_only exampleDigestParser _ "docker.io" "library/nginx"
    "sha256:e3b0c44298fc1c149afbf4c8996fb92427ae41e4649b934ca495991b7852b855" rfl (by decide)⟩

end PodUpgradeCheck
